import Mathlib

/-!
Verification development for the scollex repository (czcorpus/scollex).

The Go sources are shallowly embedded below:

* pure helpers (`expandDeprelMultivalue`, the logDice scorer of
  `engine/precalc.go:updateCoOcc` and `actions.go`) become Lean functions;
* the in-memory hash tables (`FyTable`, `CounterTable`, `CoOccTable`,
  keyed by `fmt.Sprintf` composite strings) become association lists from
  the very same key strings to the same record structures;
* the streaming processors (`VertProcessor.ProcToken`,
  `CoVertProcessor.ProcToken`) become step functions folded over a token
  list;
* the database is modelled at the visible-row level: a table is a
  multiset of rows, a transaction buffers inserts until commit, while a
  statement executed directly on the pooled connection takes effect
  immediately (Go `database/sql` autocommit semantics);
* float64 arithmetic of the scorer is modelled symbolically: the value
  `14 + log2 q` is represented by its argument `q : ℚ` together with the
  IEEE special categories (+Inf, -Inf, NaN), which is exact for the
  equality and order comparisons the program performs on such values.
-/

/-! ## String splitting (Go strings.Split with a one-character separator) -/

/-- Splitting a character list on a separator character; mirrors Go
strings.Split for a one-character separator (on the underlying char
list of the string). Never returns an empty list. -/
def splitOnCharList (c : Char) : List Char → List (List Char)
  | [] => [[]]
  | x :: xs =>
    if x = c then [] :: splitOnCharList c xs
    else
      match splitOnCharList c xs with
      | [] => [[x]]
      | h :: t => (x :: h) :: t

/-- Go strings.Split(value, "|") over the string's character data. -/
def splitPipe (s : String) : List String :=
  (splitOnCharList '|' s.data).map String.mk

/-- A string is colon-free when its character data avoids ':'.  The
composite hash keys built with "%s:%s:%s" patterns are injective
exactly on colon-free components. -/
def colonFree (s : String) : Prop := ':' ∉ s.data

instance (s : String) : Decidable (colonFree s) := by
  unfold colonFree; infer_instance

/-! ## The association scorer (engine/precalc.go updateCoOcc, actions.go) -/

/-- Symbolic value of the float64 expression
14 + math.Log2(2*fxy/(fx+fy)): a finite value is represented by the
(positive) rational argument of log2, the degenerate IEEE outcomes by
their category. -/
inductive RawScore where
  | score (q : ℚ)
  | posInf
  | negInf
  | nan
deriving DecidableEq, Repr

/-- The raw logDice computation 14 + math.Log2(2*float64(xy)/float64(fx+fy))
shared verbatim by the write path (engine/precalc.go:399) and the read
path (actions.go:80), before any substitution, with IEEE semantics for
the degenerate cases (0/0 is NaN, pos/0 is +Inf, log2 of 0 is -Inf,
log2 of a negative number is NaN). -/
def rawLogDice (fxy fx fy : ℤ) : RawScore :=
  if fx + fy = 0 then
    if fxy = 0 then .nan
    else if 0 < fxy then .posInf
    else .negInf
  else
    let q : ℚ := (2 * fxy : ℚ) / ((fx : ℚ) + (fy : ℚ))
    if q < 0 then .nan
    else if q = 0 then .negInf
    else .score q

/-- A value as persisted or delivered: either a genuine finite logDice
value, one of the write path's sentinel substitutions
(engine/precalc.go:401-407), or a raw IEEE special value passed through
unchanged. -/
inductive StoredScore where
  | val (q : ℚ)
  | sentinelMax
  | sentinelMin
  | zero
  | pInf
  | nInf
  | nanV
deriving DecidableEq, Repr

/-- The write path's post-hoc edge-case policy (engine/precalc.go:401-407):
+Inf is replaced by 3.4e38, -Inf by -3.4e38, NaN by 0. -/
def substituteEdgeCases : RawScore → StoredScore
  | .score q => .val q
  | .posInf => .sentinelMax
  | .negInf => .sentinelMin
  | .nan => .zero

/-- The score computed and persisted by the write path
(engine/precalc.go:updateCoOcc): raw logDice followed by the sentinel
substitutions. -/
def writePathScore (fxy fx fy : ℤ) : StoredScore :=
  substituteEdgeCases (rawLogDice fxy fx fy)

/-- The CollWeight delivered by the read path (actions.go:80): the raw
logDice value with no substitution whatsoever. -/
def readPathScore (fxy fx fy : ℤ) : StoredScore :=
  match rawLogDice fxy fx fy with
  | .score q => .val q
  | .posInf => .pInf
  | .negInf => .nInf
  | .nan => .nanV

/-! ## In-memory aggregation tables (engine/precalc.go)

Go maps keyed by fmt.Sprintf composite strings are embedded as
association lists from the very same key strings to the same records;
`add` is get-or-create followed by `Freq += val`, exactly as in the
source. -/

/-- engine/precalc.go FyItem. -/
structure FyItem where
  lemma_ : String
  upos : String
  deprel : String
  freq : ℤ
deriving DecidableEq, Repr

/-- engine/precalc.go FyTable (map from composite string key). -/
abbrev FyTable : Type := List (String × FyItem)

/-- engine/precalc.go FyTable.mkKey: fmt.Sprintf %s:%s:%s of
(lemma, upos, deprel). -/
def FyTable.mkKey (lemma_ upos deprel : String) : String :=
  lemma_ ++ ":" ++ upos ++ ":" ++ deprel

/-- engine/precalc.go FyTable.Add. -/
def FyTable.add : FyTable → String → String → String → ℤ → FyTable
  | [], l, u, d, v => [(FyTable.mkKey l u d, ⟨l, u, d, v⟩)]
  | (k, it) :: rest, l, u, d, v =>
    if k = FyTable.mkKey l u d then (k, { it with freq := it.freq + v }) :: rest
    else (k, it) :: FyTable.add rest l u d v

/-- engine/precalc.go FyTable.Has. -/
def FyTable.has (t : FyTable) (l u d : String) : Bool :=
  t.any (fun kv => kv.1 = FyTable.mkKey l u d)

/-- Frequency stored under a key (0 when the key is absent). -/
def FyTable.lookupFreq (t : FyTable) (l u d : String) : ℤ :=
  match t.find? (fun kv => kv.1 = FyTable.mkKey l u d) with
  | some kv => kv.2.freq
  | none => 0

/-- engine/precalc.go CTItem. -/
structure CTItem where
  lemma_ : String
  pLemma : String
  deprel : String
  upos : String
  pUpos : String
  freq : ℤ
deriving DecidableEq, Repr

/-- engine/precalc.go CounterTable. -/
abbrev CounterTable : Type := List (String × CTItem)

/-- engine/precalc.go CounterTable.mkKey: fmt.Sprintf %s:%s:%s:%s:%s of
(lemma, upos, deprel, pLemma, pUpos). -/
def CounterTable.mkKey (lemma_ upos pLemma pUpos deprel : String) : String :=
  lemma_ ++ ":" ++ upos ++ ":" ++ deprel ++ ":" ++ pLemma ++ ":" ++ pUpos

/-- engine/precalc.go CounterTable.Add. -/
def CounterTable.add : CounterTable → String → String → String → String → String → ℤ → CounterTable
  | [], l, u, pl, pu, d, v => [(CounterTable.mkKey l u pl pu d, ⟨l, pl, d, u, pu, v⟩)]
  | (k, it) :: rest, l, u, pl, pu, d, v =>
    if k = CounterTable.mkKey l u pl pu d then
      (k, { it with freq := it.freq + v }) :: rest
    else (k, it) :: CounterTable.add rest l u pl pu d v

/-- Frequency stored under an edge key (0 when the key is absent). -/
def CounterTable.lookupFreq (t : CounterTable) (l u pl pu d : String) : ℤ :=
  match t.find? (fun kv => kv.1 = CounterTable.mkKey l u pl pu d) with
  | some kv => kv.2.freq
  | none => 0

/-- engine/precalc.go CoTItem. -/
structure CoTItem where
  lemma_ : String
  coLemma : String
  upos : String
  coUpos : String
  freq : ℤ
deriving DecidableEq, Repr

/-- engine/precalc.go CoOccTable. -/
abbrev CoOccTable : Type := List (String × CoTItem)

/-- engine/precalc.go CoOccTable.mkKey: fmt.Sprintf with pattern
using a double colon between the two (lemma, upos) pairs. -/
def CoOccTable.mkKey (lemma_ upos coLemma coUpos : String) : String :=
  lemma_ ++ ":" ++ upos ++ "::" ++ coLemma ++ ":" ++ coUpos

/-- engine/precalc.go CoOccTable.Add. -/
def CoOccTable.add : CoOccTable → String → String → String → String → ℤ → CoOccTable
  | [], l, u, cl, cu, v => [(CoOccTable.mkKey l u cl cu, ⟨l, cl, u, cu, v⟩)]
  | (k, it) :: rest, l, u, cl, cu, v =>
    if k = CoOccTable.mkKey l u cl cu then
      (k, { it with freq := it.freq + v }) :: rest
    else (k, it) :: CoOccTable.add rest l u cl cu v

/-- engine/precalc.go CoOccTable.Has. -/
def CoOccTable.has (t : CoOccTable) (l u cl cu : String) : Bool :=
  t.any (fun kv => kv.1 = CoOccTable.mkKey l u cl cu)

/-- Frequency stored under a co-occurrence key (0 when absent). -/
def CoOccTable.lookupFreq (t : CoOccTable) (l u cl cu : String) : ℤ :=
  match t.find? (fun kv => kv.1 = CoOccTable.mkKey l u cl cu) with
  | some kv => kv.2.freq
  | none => 0

/-! ## Deprel expansion and configuration (engine/precalc.go, engine sources) -/

/-- engine/precalc.go expandDeprelMultivalue: split on the pipe and
append the original expression (the log warning for more than two
parts has no effect on the result). -/
def expandDeprelMultivalue (value : String) : List String :=
  splitPipe value ++ [value]

/-- engine/precalc.go expandDeprelMultivalues. -/
def expandDeprelMultivalues (values : List String) : List String :=
  values.flatMap expandDeprelMultivalue

/-- cnc-gokit collections.SliceContains on strings. -/
def sliceContains (l : List String) (s : String) : Bool := l.contains s

/-- engine PosAttrProps (name plus the 1-based vertical column). -/
structure PosAttrProps where
  name : String
  verticalCol : Nat
deriving DecidableEq, Repr

/-- engine SyntaxProps (per-corpus attribute-naming configuration). -/
structure SyntaxProps where
  parentIdxAttr : PosAttrProps
  lemmaAttr : PosAttrProps
  parLemmaAttr : PosAttrProps
  posAttr : PosAttrProps
  parPosAttr : PosAttrProps
  funcAttr : PosAttrProps
  nounValue : String
  verbValue : String
  nounModifiedValue : String
  nounSubjectValue : String
  nounObjectValue : String
deriving DecidableEq, Repr

/-- A vertical-file token: the positional attribute columns supplied by
the vertigo parser (token.Attrs). -/
structure Token where
  attrs : List String
deriving DecidableEq, Repr

/-- Reading attribute column k: Go indexes token.Attrs[k-1] (the word
itself is separate in vertigo, hence the shift). -/
def attrAt (tok : Token) (col : Nat) : String := tok.attrs.getD (col - 1) ""

/-! ## Edge aggregator (engine/precalc.go VertProcessor.ProcToken) -/

/-- The mutable state of a VertProcessor: the edge table and the two
marginal-sum tables. -/
structure VertProcState where
  table : CounterTable
  parentCounts : FyTable
  childCounts : FyTable
deriving DecidableEq, Repr

def emptyVertState : VertProcState := ⟨[], [], []⟩

/-- engine/precalc.go VertProcessor.ProcToken: skip rows with fewer
than 12 columns, expand the deprel expression, and for every expanded
value contained in DeprelTypes add 1 to the edge table and to both
marginal-sum tables. -/
def vertProcToken (conf : SyntaxProps) (deprelTypes : List String)
    (st : VertProcState) (tok : Token) : VertProcState :=
  if tok.attrs.length < 12 then st
  else
    let deprelTmp := attrAt tok conf.funcAttr.verticalCol
    let lemma_ := attrAt tok conf.lemmaAttr.verticalCol
    let upos := attrAt tok conf.posAttr.verticalCol
    let pUpos := attrAt tok conf.parPosAttr.verticalCol
    let pLemma := attrAt tok conf.parLemmaAttr.verticalCol
    (expandDeprelMultivalue deprelTmp).foldl
      (fun s deprel =>
        if sliceContains deprelTypes deprel then
          { table := CounterTable.add s.table lemma_ upos pLemma pUpos deprel 1
            parentCounts := FyTable.add s.parentCounts pLemma pUpos deprel 1
            childCounts := FyTable.add s.childCounts lemma_ upos deprel 1 }
        else s)
      st

/-- One full pass of the edge aggregator over a token stream
(vertigo.ParseVerticalFile driving VertProcessor.ProcToken). -/
def vertProcess (conf : SyntaxProps) (deprelTypes : List String)
    (toks : List Token) : VertProcState :=
  toks.foldl (vertProcToken conf deprelTypes) emptyVertState

/-! ## Co-occurrence aggregator (engine/precalc.go CoVertProcessor.ProcToken) -/

/-- The mutable state of a CoVertProcessor: the sliding window of
(lemma, upos) pairs, the seeded co-occurrence table and the seeded
per-token marginal counts. -/
structure CoVertState where
  window : List (String × String)
  coTable : CoOccTable
  tokenCounts : FyTable
deriving DecidableEq, Repr

/-- The inner loop of CoVertProcessor.ProcToken (engine/precalc.go:186-191):
for every window position other than the middle one, increment the
(focus, other) pair when it is already present in the seeded table. -/
def coPairPass (span : Nat) (focus : String × String)
    (window : List (String × String)) (ct : CoOccTable) : CoOccTable :=
  window.enum.foldl
    (fun ct iv =>
      if iv.1 ≠ span ∧ CoOccTable.has ct focus.1 focus.2 iv.2.1 iv.2.2 then
        CoOccTable.add ct focus.1 focus.2 iv.2.1 iv.2.2 1
      else ct)
    ct

/-- engine/precalc.go CoVertProcessor.ProcToken: skip short rows; slide
the window (FIFO eviction once it holds 2*span+1 tokens); increment the
arriving token's marginal count whenever its (lemma, upos) is seeded;
then, if the updated window is full, run the pair loop around the
middle token. -/
def coVertProcToken (conf : SyntaxProps) (span : Nat)
    (st : CoVertState) (tok : Token) : CoVertState :=
  if tok.attrs.length < 12 then st
  else
    let lemma_ := attrAt tok conf.lemmaAttr.verticalCol
    let upos := attrAt tok conf.posAttr.verticalCol
    let window :=
      if st.window.length = 2 * span + 1 then st.window.tail ++ [(lemma_, upos)]
      else st.window ++ [(lemma_, upos)]
    let tokenCounts :=
      if FyTable.has st.tokenCounts lemma_ upos "" then
        FyTable.add st.tokenCounts lemma_ upos "" 1
      else st.tokenCounts
    let coTable :=
      if window.length = 2 * span + 1 then
        coPairPass span (window.getD span ("", "")) window st.coTable
      else st.coTable
    ⟨window, coTable, tokenCounts⟩

/-- One full pass of the co-occurrence aggregator over a token stream
(processCoOcc driving CoVertProcessor.ProcToken, starting from an empty
window and the seeded tables). -/
def coVertProcess (conf : SyntaxProps) (span : Nat)
    (coTable : CoOccTable) (tokenCounts : FyTable) (toks : List Token) : CoVertState :=
  toks.foldl (coVertProcToken conf span) ⟨[], coTable, tokenCounts⟩

/-! ## Persisted tables and the bulk write (engine/precalc.go, engine/init.go)

The database is modelled at the level visible to other connections: a
table is a multiset of rows.  Statements executed through the
transaction are buffered until commit and discarded by rollback;
statements executed directly on the pooled connection (autocommit) take
effect immediately. -/

/-- One row of the corpus edge table <corpus>_fcolls (the
co_occurrence_score column is NULL until updateCoOcc fills it). -/
structure EdgeRowDB where
  lemma_ : String
  upos : String
  pLemma : String
  pUpos : String
  deprel : String
  freq : ℤ
  coOccScore : Option StoredScore
deriving DecidableEq, Repr

/-- One row of a marginal-sum table (<corpus>_parent_sums or
<corpus>_child_sums): the head pair of name columns, the deprel and the
frequency. -/
structure SumRowDB where
  headLemma : String
  headUpos : String
  deprel : String
  freq : ℤ
deriving DecidableEq, Repr

/-- The visible persisted state for one corpus: whether its three
aggregate tables exist, and their rows. -/
structure DBTables where
  hasTables : Bool
  fcolls : Multiset EdgeRowDB
  parentSums : Multiset SumRowDB
  childSums : Multiset SumRowDB
deriving DecidableEq

/-- Row written for an edge-table entry by writeFxy
(engine/precalc.go:268). -/
def ctRow (it : CTItem) : EdgeRowDB :=
  ⟨it.lemma_, it.upos, it.pLemma, it.pUpos, it.deprel, it.freq, none⟩

def ctRows (t : CounterTable) : List EdgeRowDB := t.map (fun kv => ctRow kv.2)

/-- Row written for a marginal-sum entry by writeParents/writeChildren
(engine/precalc.go:308,348). -/
def fyRow (it : FyItem) : SumRowDB := ⟨it.lemma_, it.upos, it.deprel, it.freq⟩

def fyRows (t : FyTable) : List SumRowDB := t.map (fun kv => fyRow kv.2)

/-- engine/precalc.go bulkInsertChunkSize. -/
def bulkInsertChunkSize : Nat := 10000

/-- Fuel-driven chunking helper (the fuel is the list length, so the
zero-fuel branch is never reached on the intended calls). -/
def chunksOfAux (n : Nat) : Nat → List α → List (List α)
  | _, [] => []
  | 0, l => [l]
  | fuel + 1, x :: xs => (x :: xs.take (n - 1)) :: chunksOfAux n fuel (xs.drop (n - 1))

/-- The chunks flushed by writeFxy/writeParents/writeChildren: groups
of exactly n rows followed by the final partial group. -/
def chunksOf (n : Nat) (l : List α) : List (List α) := chunksOfAux n l.length l

/-- One bulk INSERT statement executed inside the transaction. -/
inductive InsOp where
  | insFcolls (rows : List EdgeRowDB)
  | insChildren (rows : List SumRowDB)
  | insParents (rows : List SumRowDB)
deriving DecidableEq

/-- The INSERT statements issued by runForDeprel in source order:
writeFxy, then writeChildren, then writeParents
(engine/precalc.go:499-507). -/
def insertOps (table : CounterTable) (childSums parentSums : FyTable) : List InsOp :=
  (chunksOf bulkInsertChunkSize (ctRows table)).map .insFcolls
    ++ (chunksOf bulkInsertChunkSize (fyRows childSums)).map .insChildren
    ++ (chunksOf bulkInsertChunkSize (fyRows parentSums)).map .insParents

/-- Effect of one committed bulk INSERT on the visible tables. -/
def applyIns (db : DBTables) : InsOp → DBTables
  | .insFcolls rows => { db with fcolls := db.fcolls + ↑rows }
  | .insChildren rows => { db with childSums := db.childSums + ↑rows }
  | .insParents rows => { db with parentSums := db.parentSums + ↑rows }

/-- Seeding of the co-occurrence tables from the in-memory edge table
(engine/precalc.go:516-522): every edge pair enters CoOccTable with
frequency 0 and both participants enter the token counts with 0. -/
def seedCoOcc (table : CounterTable) : CoOccTable × FyTable :=
  table.foldl
    (fun pr kv =>
      (CoOccTable.add pr.1 kv.2.lemma_ kv.2.upos kv.2.pLemma kv.2.pUpos 0,
       FyTable.add (FyTable.add pr.2 kv.2.lemma_ kv.2.upos "" 0)
         kv.2.pLemma kv.2.pUpos "" 0))
    ([], [])

/-- engine/precalc.go updateCoOcc: for every co-occurrence entry,
compute the logDice score with the sentinel substitutions and UPDATE
the edge rows matching all four name columns. -/
def updateCoOccModel (co : CoOccTable) (counts : FyTable)
    (fc : Multiset EdgeRowDB) : Multiset EdgeRowDB :=
  co.foldl
    (fun m kv =>
      let fx := FyTable.lookupFreq counts kv.2.lemma_ kv.2.upos ""
      let fy := FyTable.lookupFreq counts kv.2.coLemma kv.2.coUpos ""
      let sc := writePathScore kv.2.freq fx fy
      m.map (fun r =>
        if r.lemma_ = kv.2.lemma_ ∧ r.upos = kv.2.upos ∧
            r.pLemma = kv.2.coLemma ∧ r.pUpos = kv.2.coUpos then
          { r with coOccScore := some sc }
        else r))
    fc

/-- The success path of processCoOcc (engine/precalc.go:419-454): run
the co-occurrence pass over the stream and commit the score updates in
their own transaction. -/
def processCoOccSuccess (conf : SyntaxProps) (span : Nat) (toks : List Token)
    (coTable : CoOccTable) (tokenCounts : FyTable) (db : DBTables) : DBTables :=
  let final := coVertProcess conf span coTable tokenCounts toks
  { db with fcolls := updateCoOccModel final.coTable final.tokenCounts db.fcolls }

/-- Outcome of a write stage: whether it succeeded, and the visible
state afterwards. -/
structure WriteResult where
  ok : Bool
  db : DBTables
deriving DecidableEq

/-- engine/precalc.go runForDeprel.  The aggregation pass feeds three
in-memory tables; a transaction is opened, but the DELETE FROM
<corpus>_fcolls is executed with db.ExecContext on the pooled
connection (line 492), so it takes effect immediately and is not undone
by a rollback.  The chunked INSERTs run inside the transaction; failOn
says which (0-based) INSERT statement fails, and the first failure
rolls the transaction back, leaving only the autocommitted DELETE
visible.  On success the transaction commits and the co-occurrence pass
follows. -/
def runForDeprelModel (conf : SyntaxProps) (span : Nat) (toks : List Token)
    (failOn : Nat → Bool) (db : DBTables) : WriteResult :=
  let st := vertProcess conf
    (expandDeprelMultivalues
      [conf.nounModifiedValue, conf.nounSubjectValue, conf.nounObjectValue]) toks
  let committed : DBTables := { db with fcolls := 0 }
  let ops := insertOps st.table st.childCounts st.parentCounts
  if (List.range ops.length).any failOn then
    ⟨false, committed⟩
  else
    let afterCommit := ops.foldl applyIns committed
    let seeds := seedCoOcc st.table
    ⟨true, processCoOccSuccess conf span toks seeds.1 seeds.2 afterCommit⟩

/-- All three aggregate tables freshly created and empty
(engine/init.go createCollsTable, createParentSumsTable,
createChildSumsTable). -/
def freshTables : DBTables := ⟨true, 0, 0, 0⟩

/-- engine/init.go InitializeDB: with force the three tables are
dropped and recreated empty; without force, CREATE TABLE fails whenever
the tables already exist (no IF NOT EXISTS), the transaction is rolled
back and the import command aborts via log.Fatal. -/
def initializeDB (force : Bool) (db : DBTables) : WriteResult :=
  if force then ⟨true, freshTables⟩
  else if db.hasTables then ⟨false, db⟩
  else ⟨true, freshTables⟩

/-- The probe row inserted by TestTableReady (engine/query.go:56-57,
INSERT IGNORE with only the id column given: every other column takes
its implicit default).  It is wiped by runForDeprel's DELETE. -/
def testRow : EdgeRowDB := ⟨"", "", "", "", "", 0, none⟩

/-- The import CLI action (scollex.go, case "import"): InitializeDB,
TestTableReady's probe insert, then engine.RunPg = runForDeprel on the
success path. -/
def importCmd (force : Bool) (conf : SyntaxProps) (span : Nat)
    (toks : List Token) (db : DBTables) : DBTables :=
  match initializeDB force db with
  | ⟨false, dbAfter⟩ => dbAfter
  | ⟨true, dbAfter⟩ =>
    let db1 : DBTables := { dbAfter with fcolls := testRow ::ₘ dbAfter.fcolls }
    (runForDeprelModel conf span toks (fun _ => false) db1).db

/-! ## Sharded candidate fetch (src/unnamed/part_005 CollDatabase) -/

/-- One row of the sharded edge-table variant, which also carries the
precomputed chunk (shard) key column of the schema. -/
structure FcollRow where
  lemma_ : String
  upos : String
  pLemma : String
  pUpos : String
  deprel : String
  freq : ℤ
  chunk : ℤ
deriving DecidableEq, Repr

/-- The WHERE clause built by getChildCandidatesForChunk
(src/unnamed/part_005:120-143): p_lemma match, minimum frequency, the
OR-expansion of the deprel expression when present, and the optional
p_upos filter. -/
def childWhere (pLemma pUpos deprel : String) (minFreq : ℤ) (r : FcollRow) : Bool :=
  decide (r.pLemma = pLemma) && decide (minFreq ≤ r.freq)
    && (decide (deprel = "") || (splitPipe deprel).contains r.deprel)
    && (decide (pUpos = "") || decide (r.pUpos = pUpos))

/-- The correlated subquery computing the candidate marginal:
SELECT SUM(freq) over rows agreeing on (lemma, upos, deprel). -/
def subqueryFy (rows : List FcollRow) (a : FcollRow) : ℤ :=
  (rows.map (fun b =>
    if b.lemma_ = a.lemma_ ∧ b.upos = a.upos ∧ b.deprel = a.deprel then b.freq
    else 0)).sum

/-- The Candidate record scanned by the sharded fetch
(src/unnamed/part_005:32-37). -/
structure ChunkCandidate where
  lemma_ : String
  upos : String
  freqXY : ℤ
  freqY : ℤ
deriving DecidableEq, Repr

/-- src/unnamed/part_005 getChildCandidatesForChunk.  Faithful to the
source: the chunk argument appears nowhere in the generated SQL, so the
same full WHERE clause runs for every shard. -/
def getChildCandidatesForChunk (rows : List FcollRow)
    (pLemma pUpos deprel : String) (minFreq : ℤ) (chunk : Nat) : List ChunkCandidate :=
  (rows.filter (childWhere pLemma pUpos deprel minFreq)).map
    (fun a => ⟨a.lemma_, a.upos, a.freq, subqueryFy rows a⟩)

/-- src/unnamed/part_005 GetChildCandidates: eight concurrent shard
queries whose partial results are merged by concatenation.  The merge
order at the fan-in channel is scheduler-dependent; this model fixes
shard order, which represents every interleaving up to permutation (the
claims about the merge are stated at the multiset level). -/
def getChildCandidatesSharded (rows : List FcollRow)
    (pLemma pUpos deprel : String) (minFreq : ℤ) : List ChunkCandidate :=
  ((List.range 8).map
    (fun i => getChildCandidatesForChunk rows pLemma pUpos deprel minFreq i)).flatten

/-- The single non-sharded fetch over the same data (the non-view
branch of GetChildCandidates in src/unnamed/part_004:146-152, whose SQL
is identical to one shard query). -/
def getChildCandidatesSingle (rows : List FcollRow)
    (pLemma pUpos deprel : String) (minFreq : ℤ) : List ChunkCandidate :=
  (rows.filter (childWhere pLemma pUpos deprel minFreq)).map
    (fun a => ⟨a.lemma_, a.upos, a.freq, subqueryFy rows a⟩)

/-! ## Query handlers (actions.go, engine/query.go, engine types) -/

/-- engine/query.go Candidate as scanned by GetCollCandidatesOfChild:
lemma, upos, joint frequency, the candidate marginal from the
parent-sums subquery, and the stored co-occurrence score column. -/
structure Candidate where
  lemma_ : String
  upos : String
  freqXY : ℤ
  freqY : ℤ
  coOccScore : StoredScore
deriving DecidableEq, Repr

/-- engine FreqDistribItem (word, raw frequency, norm, instances per
million, the raw CollWeight and the stored co-occurrence score). -/
structure FreqDistribItem where
  word : String
  freq : ℤ
  norm : ℤ
  ipm : ℚ
  collWeight : RawScore
  coOccScore : StoredScore
deriving DecidableEq, Repr

/-- The response item built per candidate (actions.go:76-82).  The IPM
float expression freq/corpusSize*1e6 is taken at exact rational value
(no claim below evaluates it). -/
def mkItem (corpusSize fx : ℤ) (c : Candidate) : FreqDistribItem :=
  { word := c.lemma_
    freq := c.freqXY
    norm := 0
    ipm := (c.freqXY : ℚ) / (corpusSize : ℚ) * 1000000
    collWeight := rawLogDice c.freqXY fx c.freqY
    coOccScore := c.coOccScore }

/-- IEEE float64 strict comparison on the symbolic score values: NaN
compares false against everything, the infinities are extreme, and
finite values 14 + log2 q compare by their arguments (log2 is strictly
increasing). -/
def scoreLt : RawScore → RawScore → Bool
  | .nan, _ => false
  | _, .nan => false
  | .negInf, .negInf => false
  | .negInf, _ => true
  | _, .negInf => false
  | .posInf, _ => false
  | .score _, .posInf => true
  | .score a, .score b => decide (a < b)

/-- The comparator handed to sort.SliceStable (actions.go:85-90):
item i precedes item j when CollWeight j < CollWeight i. -/
def itemBefore (x y : FreqDistribItem) : Bool := scoreLt y.collWeight x.collWeight

/-- Stable insertion of x before the first element that does not
strictly precede it: the list semantics of Go sort.SliceStable. -/
def sliceStableInsert (less : α → α → Bool) (x : α) : List α → List α
  | [] => [x]
  | y :: ys => if less y x then y :: sliceStableInsert less x ys else x :: y :: ys

/-- Go sort.SliceStable: a stable sort by the given strict comparator
(earlier elements are inserted after later ones have been sorted, and
stop before the first element not strictly preceding them, so equal
elements keep their original order). -/
def sliceStableSort (less : α → α → Bool) : List α → List α
  | [] => []
  | x :: xs => sliceStableInsert less x (sliceStableSort less xs)

/-- engine FreqDistribItemList.Cut: truncate to maxItems when the list
is longer, otherwise return it unchanged. -/
def cutList (flist : List α) (maxItems : Nat) : List α :=
  if maxItems < flist.length then flist.take maxItems else flist

/-- Steps (3)-(6) of the handler on a fetched candidate list
(actions.go:73-91): build items, stable-sort descending by CollWeight,
truncate to maxItems. -/
def rankItems (corpusSize fx : ℤ) (cands : List Candidate) (maxItems : Nat) :
    List FreqDistribItem :=
  cutList (sliceStableSort itemBefore (cands.map (mkItem corpusSize fx))) maxItems

/-- The request-level inputs and collaborator results a handler call
sees: the query string values, whether GetCorpusProps finds the corpus,
its size, and the outcomes of the two storage fetches. -/
structure QueryEnv where
  w : String
  pos : String
  maxItems : Nat
  corpusFound : Bool
  corpusSize : ℤ
  fxFetch : Except Unit ℤ
  candFetch : Except Unit (List Candidate)

/-- What a handler invocation does to the response: either a single
JSON error with an HTTP status (the request is aborted, nothing else is
written), or the success payload. -/
inductive HandlerOutcome where
  | errorResp (status : Nat)
  | success (freqs : List FreqDistribItem)
deriving DecidableEq, Repr

/-- engine Word.IsValid: the word must be non-empty. -/
def wordIsValid (w : String) : Bool := decide (w ≠ "")

/-- actions.go Actions.NounsModifiedBy control flow: invalid word gives
422 (StatusUnprocessableEntity); unknown corpus gives 500
(StatusInternalServerError); a failed GetFreq or failed
GetCollCandidatesOfChild gives 500; otherwise the ranked, truncated
distribution is returned. -/
def nounsModifiedBy (env : QueryEnv) : HandlerOutcome :=
  if !wordIsValid env.w then .errorResp 422
  else if !env.corpusFound then .errorResp 500
  else
    match env.fxFetch with
    | .error _ => .errorResp 500
    | .ok fx =>
      match env.candFetch with
      | .error _ => .errorResp 500
      | .ok cands => .success (rankItems env.corpusSize fx cands env.maxItems)

/-- An outcome is a client error when it is an aborted response with a
4xx status. -/
def HandlerOutcome.isClientError : HandlerOutcome → Bool
  | .errorResp s => decide (400 ≤ s) && decide (s < 500)
  | .success _ => false

/-- An outcome is a server error when it is an aborted response with a
5xx status. -/
def HandlerOutcome.isServerError : HandlerOutcome → Bool
  | .errorResp s => decide (500 ≤ s) && decide (s < 600)
  | .success _ => false

/-! ## Derived measures on the aggregation tables -/

/-- Total frequency over all entries of an edge table. -/
def ctTotal (t : CounterTable) : ℤ := (t.map (fun kv => kv.2.freq)).sum

/-- Total frequency over the entries of an edge table whose stored
deprel equals d (the per-deprel total of the persisted rows). -/
def ctSumFor (d : String) (t : CounterTable) : ℤ :=
  (t.map (fun kv => if kv.2.deprel = d then kv.2.freq else 0)).sum

/-- Total frequency over the entries of a marginal-sum table whose
stored deprel equals d. -/
def fySumFor (d : String) (t : FyTable) : ℤ :=
  (t.map (fun kv => if kv.2.deprel = d then kv.2.freq else 0)).sum

/-- A marginal-sum table is coherent when every entry sits under the
key built from its own colon-free fields; tables grown by Add from
colon-free inputs have this shape. -/
def fyCoherent (t : FyTable) : Prop :=
  ∀ kv ∈ t, kv.1 = FyTable.mkKey kv.2.lemma_ kv.2.upos kv.2.deprel ∧
    colonFree kv.2.lemma_ ∧ colonFree kv.2.upos ∧ colonFree kv.2.deprel

/-- Coherence of an edge table, as for fyCoherent. -/
def ctCoherent (t : CounterTable) : Prop :=
  ∀ kv ∈ t,
    kv.1 = CounterTable.mkKey kv.2.lemma_ kv.2.upos kv.2.pLemma kv.2.pUpos kv.2.deprel ∧
    colonFree kv.2.lemma_ ∧ colonFree kv.2.upos ∧ colonFree kv.2.pLemma ∧
    colonFree kv.2.pUpos ∧ colonFree kv.2.deprel

/-- The combined invariant of one edge-aggregation pass: coherent
tables whose per-deprel totals agree. -/
def aggInv (st : VertProcState) : Prop :=
  ctCoherent st.table ∧ fyCoherent st.parentCounts ∧ fyCoherent st.childCounts ∧
  ∀ d, ctSumFor d st.table = fySumFor d st.parentCounts ∧
    ctSumFor d st.table = fySumFor d st.childCounts

/-- How many positions of the (already updated) window would increment
a given co-occurrence key in the pair loop: positions other than the
middle whose pair with the focus token is seeded in the table and maps
onto that key. -/
def countMatches (span : Nat) (focus : String × String)
    (window : List (String × String)) (ct : CoOccTable) (a b c d : String) : ℤ :=
  (window.enum.countP (fun iv =>
    decide (iv.1 ≠ span) && CoOccTable.has ct focus.1 focus.2 iv.2.1 iv.2.2
      && decide
        (CoOccTable.mkKey focus.1 focus.2 iv.2.1 iv.2.2 = CoOccTable.mkKey a b c d)) : ℤ)

/-! ## Concrete fixtures used by the evaluation theorems -/

/-- A configuration whose attributes sit in vertical columns 1-5 and
whose relation classes are the intercorp values documented in
engine SyntaxProps. -/
def stdConf : SyntaxProps :=
  { parentIdxAttr := ⟨"p_idx", 6⟩
    lemmaAttr := ⟨"lemma", 1⟩
    parLemmaAttr := ⟨"p_lemma", 3⟩
    posAttr := ⟨"upos", 2⟩
    parPosAttr := ⟨"p_upos", 4⟩
    funcAttr := ⟨"deprel", 5⟩
    nounValue := "NOUN"
    verbValue := "VERB"
    nounModifiedValue := "nmod"
    nounSubjectValue := "nsubj"
    nounObjectValue := "obj|iobj" }

/-- A 12-column token row carrying the five attributes used by the
processors in the columns stdConf points at. -/
def mkTok (l u pl pu dep : String) : Token :=
  ⟨[l, u, pl, pu, dep, "", "", "", "", "", "", ""]⟩

/-- Whether a single token is counted (at least one edge record
incremented) by an aggregation pass restricted to the expansion of one
configured relation value. -/
def tokenCounted (filterVal : String) (tok : Token) : Prop :=
  0 < ctTotal (vertProcToken stdConf (expandDeprelMultivalues [filterVal])
    emptyVertState tok).table

/-- C2 fixture: a previously persisted corpus state with one edge row
and its marginal sums. -/
def c2OldRow : EdgeRowDB := ⟨"old", "NOUN", "p", "NOUN", "nmod", 5, none⟩

def c2Init : DBTables :=
  ⟨true, {c2OldRow}, {⟨"p", "NOUN", "nmod", 5⟩}, {⟨"old", "NOUN", "nmod", 5⟩}⟩

def c2Toks : List Token := [mkTok "team" "NOUN" "leader" "NOUN" "nmod"]

/-- C2 fixture: the very first chunk INSERT of the bulk write fails. -/
def c2FailFirst (k : Nat) : Bool := k == 0

/-- C4 fixture: an edge table holding a single matching row. -/
def c4Rows : List FcollRow := [⟨"team", "NOUN", "leader", "NOUN", "nmod", 3, 0⟩]

/-- C7 fixture: a seeded co-occurrence table with the single pair
(a, N) x (b, N) and the single seeded token (a, N). -/
def c7St0 : CoVertState :=
  ⟨[], CoOccTable.add [] "a" "N" "b" "N" 0, FyTable.add [] "a" "N" "" 0⟩

def c7Tok : Token := mkTok "a" "N" "x" "X" "dep"

/-- C8 fixture: a configuration whose noun-modifier relation value
contains a colon, as UD subtype labels (nmod:poss and friends) do. -/
def c8Conf : SyntaxProps :=
  { stdConf with nounModifiedValue := "i:obj", nounObjectValue := "obj" }

def c8Types : List String := expandDeprelMultivalues ["i:obj", "nsubj", "obj"]

/-- C8 fixture: two tokens whose child keys "w:q:i:obj" collide
although their (lemma, upos, deprel) triples differ. -/
def c8Toks : List Token :=
  [mkTok "w" "q:i" "p" "P" "obj", mkTok "w" "q" "p" "P" "i:obj"]

/-- C9 fixture: a request with a valid word for a corpus identifier
that is not configured. -/
def c9Env : QueryEnv :=
  { w := "team", pos := "", maxItems := 10, corpusFound := false,
    corpusSize := 120000000, fxFetch := .ok 3, candFetch := .ok [] }

/-- C10 fixture: five retrieved candidates with pairwise distinct
finite scores, the third one the strongest. -/
def c10Cands : List Candidate :=
  [⟨"alpha", "NOUN", 2, 10, .zero⟩, ⟨"beta", "NOUN", 4, 10, .zero⟩,
   ⟨"gamma", "NOUN", 16, 2, .zero⟩, ⟨"delta", "NOUN", 1, 30, .zero⟩,
   ⟨"epsilon", "NOUN", 3, 20, .zero⟩]

/-! # Theorems

General lemmas about the embedded definitions come first, followed by
one theorem (plus counterexample and witness where applicable) per
claim. -/

/-! ## String-splitting lemmas -/

theorem splitOnCharList_of_not_mem {c : Char} :
    ∀ {l : List Char}, c ∉ l → splitOnCharList c l = [l]
  | [], _ => rfl
  | x :: xs, h => by
    have hx : ¬ x = c := fun hc => h (hc ▸ List.mem_cons_self x xs)
    have hxs : c ∉ xs := fun hm => h (List.mem_cons_of_mem x hm)
    simp [splitOnCharList, hx, splitOnCharList_of_not_mem hxs]

theorem splitPipe_of_not_mem {s : String} (h : '|' ∉ s.data) :
    splitPipe s = [s] := by
  simp [splitPipe, splitOnCharList_of_not_mem h]

theorem strData_append (a b : String) : (a ++ b).data = a.data ++ b.data := rfl

theorem str_ext {a b : String} (h : a.data = b.data) : a = b := by
  cases a; cases b; exact congrArg String.mk h

/-- Unique parse of a separated concatenation: when the prefixes before
the first ':' are colon-free, equality of the concatenations forces
equality of the components. -/
theorem colon_parse :
    ∀ {a : List Char}, ∀ {c : List Char}, ∀ {b d : List Char},
      ':' ∉ a → ':' ∉ c → a ++ ':' :: b = c ++ ':' :: d → a = c ∧ b = d
  | [], [], _, _, _, _, h => by simpa using h
  | [], z :: zs, _, _, _, hc, h => by
    simp only [List.nil_append, List.cons_append, List.cons.injEq] at h
    exact absurd (h.1 ▸ List.mem_cons_self z zs) hc
  | y :: ys, [], _, _, ha, _, h => by
    simp only [List.nil_append, List.cons_append, List.cons.injEq] at h
    exact absurd (h.1.symm ▸ List.mem_cons_self y ys) ha
  | y :: ys, z :: zs, b, d, ha, hc, h => by
    simp only [List.cons_append, List.cons.injEq] at h
    have ha' : ':' ∉ ys := fun hm => ha (List.mem_cons_of_mem y hm)
    have hc' : ':' ∉ zs := fun hm => hc (List.mem_cons_of_mem z hm)
    have ih := colon_parse ha' hc' h.2
    exact ⟨by simp [h.1, ih.1], ih.2⟩

/-! ## Scorer case lemmas -/

theorem rawLogDice_finite {fxy fx fy : ℤ} (h1 : 0 < fxy) (h2 : 0 < fx + fy) :
    rawLogDice fxy fx fy = .score ((2 * fxy : ℚ) / ((fx : ℚ) + (fy : ℚ))) := by
  have hne : fx + fy ≠ 0 := by omega
  have hden : (0 : ℚ) < (fx : ℚ) + (fy : ℚ) := by
    have : ((fx + fy : ℤ) : ℚ) > 0 := by exact_mod_cast h2
    push_cast at this
    linarith
  have hnum : (0 : ℚ) < 2 * (fxy : ℚ) := by
    have : ((fxy : ℤ) : ℚ) > 0 := by exact_mod_cast h1
    linarith
  have hq : (0 : ℚ) < (2 * fxy : ℚ) / ((fx : ℚ) + (fy : ℚ)) := div_pos hnum hden
  simp [rawLogDice, hne, not_lt.mpr hq.le, hq.ne']

theorem rawLogDice_nan {fxy fx fy : ℤ} (h1 : fxy = 0) (h2 : fx + fy = 0) :
    rawLogDice fxy fx fy = .nan := by
  simp [rawLogDice, h1, h2]

theorem rawLogDice_posInf {fxy fx fy : ℤ} (h1 : 0 < fxy) (h2 : fx + fy = 0) :
    rawLogDice fxy fx fy = .posInf := by
  have : fxy ≠ 0 := by omega
  simp [rawLogDice, h1, h2, this]

theorem rawLogDice_negInf {fxy fx fy : ℤ} (h1 : fxy = 0) (h2 : fx + fy ≠ 0) :
    rawLogDice fxy fx fy = .negInf := by
  simp [rawLogDice, h1, h2]

/-! ## C1 -/

/-- C1 counterexample: at the 0/0 input the read path delivers the raw
IEEE NaN while the write path has persisted 0, so the delivered and
persisted scores differ for the same inputs. -/
theorem c1_read_write_divergence_at_zero :
    readPathScore 0 0 0 ≠ writePathScore 0 0 0 := by decide

/-- C1 (amended): the CollWeight delivered by the read path equals the
score persisted by the write path whenever the raw logDice value is
finite (fxy > 0 and fx + fy > 0); on the degenerate triples only the
write path substitutes (NaN becomes 0, +Infinity the sentinel maximum,
-Infinity the sentinel minimum) while the read path delivers the raw
IEEE value unchanged. -/
theorem c1_read_write_agreement (fxy fx fy : ℤ)
    (hxy : 0 ≤ fxy) (hx : 0 ≤ fx) (hy : 0 ≤ fy) :
    (0 < fxy ∧ 0 < fx + fy →
      readPathScore fxy fx fy = writePathScore fxy fx fy)
    ∧ (fxy = 0 ∧ fx + fy = 0 →
      readPathScore fxy fx fy = .nanV ∧ writePathScore fxy fx fy = .zero)
    ∧ (0 < fxy ∧ fx + fy = 0 →
      readPathScore fxy fx fy = .pInf ∧ writePathScore fxy fx fy = .sentinelMax)
    ∧ (fxy = 0 ∧ 0 < fx + fy →
      readPathScore fxy fx fy = .nInf ∧ writePathScore fxy fx fy = .sentinelMin) := by
  refine ⟨fun h => ?_, fun h => ?_, fun h => ?_, fun h => ?_⟩
  · simp [readPathScore, writePathScore, substituteEdgeCases,
      rawLogDice_finite h.1 h.2]
  · simp [readPathScore, writePathScore, substituteEdgeCases,
      rawLogDice_nan h.1 h.2]
  · simp [readPathScore, writePathScore, substituteEdgeCases,
      rawLogDice_posInf h.1 h.2]
  · obtain ⟨h1, h2⟩ := h
    have hne : fx + fy ≠ 0 := by omega
    constructor
    · simp [readPathScore, rawLogDice_negInf h1 hne]
    · simp [writePathScore, substituteEdgeCases, rawLogDice_negInf h1 hne]

/-- C1 amended witness at the concrete triple (2, 1, 1). -/
theorem c1_read_write_agreement_witness :
    readPathScore 2 1 1 = writePathScore 2 1 1 :=
  (c1_read_write_agreement 2 1 1 (by decide) (by decide) (by decide)).1
    ⟨by decide, by decide⟩

/-! ## C2 -/

/-- C2 (code bug evaluation): starting from a persisted corpus state
with one old edge row, importing a stream whose very first chunk INSERT
fails leaves the transaction rolled back but the edge table visibly
empty: the DELETE was executed on the pooled connection outside the
transaction (engine/precalc.go:492 uses db.ExecContext although tx was
just opened), so the previously persisted corpus data does not remain
visible, contradicting the claim. -/
theorem c2_failed_import_loses_old_rows :
    (runForDeprelModel stdConf 1 c2Toks c2FailFirst c2Init).ok = false
    ∧ (runForDeprelModel stdConf 1 c2Toks c2FailFirst c2Init).db.fcolls = 0
    ∧ (runForDeprelModel stdConf 1 c2Toks c2FailFirst c2Init).db.fcolls
        ≠ c2Init.fcolls := by
  refine ⟨by decide, by decide, by decide⟩

/-! ## C3 -/

theorem applyIns_hasTables (db : DBTables) (op : InsOp) :
    (applyIns db op).hasTables = db.hasTables := by
  cases op <;> rfl

theorem foldl_applyIns_hasTables (ops : List InsOp) (db : DBTables) :
    (ops.foldl applyIns db).hasTables = db.hasTables := by
  induction ops generalizing db with
  | nil => rfl
  | cons op rest ih => simpa [applyIns_hasTables] using ih (applyIns db op)

theorem any_const_false (l : List Nat) : (l.any fun _ => false) = false := by
  induction l with
  | nil => rfl
  | cons x xs ih => simp [List.any, ih]

theorem runForDeprelModel_hasTables (conf : SyntaxProps) (span : Nat)
    (toks : List Token) (db : DBTables) :
    (runForDeprelModel conf span toks (fun _ => false) db).db.hasTables
      = db.hasTables := by
  unfold runForDeprelModel
  simp only [any_const_false, Bool.false_eq_true, if_false]
  simp [processCoOccSuccess, foldl_applyIns_hasTables]

/-- C3: running the batch import twice for the same corpus, the same
configuration and the same token-stream file leaves exactly the same
persisted contents in the edge table and in both marginal-sum tables as
running it once, whatever the initial persisted state and whichever
force flag is used (with the force flag the second run drops and
recreates the tables and deterministically reproduces the same rows;
without it the second run aborts at table creation and changes
nothing). -/
theorem c3_import_idempotent (force : Bool) (conf : SyntaxProps) (span : Nat)
    (toks : List Token) (db : DBTables) :
    importCmd force conf span toks (importCmd force conf span toks db)
      = importCmd force conf span toks db := by
  cases force with
  | true => rfl
  | false =>
    cases hdb : db.hasTables with
    | true => simp [importCmd, initializeDB, hdb]
    | false =>
      have h1 : importCmd false conf span toks db
          = (runForDeprelModel conf span toks (fun _ => false)
              { freshTables with fcolls := testRow ::ₘ freshTables.fcolls }).db := by
        simp [importCmd, initializeDB, hdb]
      rw [h1]
      have h2 : ((runForDeprelModel conf span toks (fun _ => false)
          { freshTables with fcolls := testRow ::ₘ freshTables.fcolls }).db).hasTables
            = true := by
        rw [runForDeprelModel_hasTables]; rfl
      simp [importCmd, initializeDB, h2]

/-! ## C4 -/

/-- C4 (code bug evaluation): on a table with a single matching row the
single fetch returns that one candidate, while the eight-way sharded
fetch returns eight copies (getChildCandidatesForChunk never uses its
chunk argument in the WHERE clause, so every shard runs the full
query); the merged multiset therefore differs from the non-sharded
multiset, contradicting the sharded-fetch property. -/
theorem c4_sharded_fetch_duplicates_rows :
    (getChildCandidatesSingle c4Rows "leader" "" "nmod" 1).length = 1
    ∧ (getChildCandidatesSharded c4Rows "leader" "" "nmod" 1).length = 8
    ∧ ((getChildCandidatesSharded c4Rows "leader" "" "nmod" 1 : List ChunkCandidate) :
        Multiset ChunkCandidate)
      ≠ ((getChildCandidatesSingle c4Rows "leader" "" "nmod" 1 : List ChunkCandidate) :
        Multiset ChunkCandidate) := by
  refine ⟨by decide, by decide, by decide⟩

/-! ## Table add/lookup lemmas -/

theorem ctTotal_nil : ctTotal [] = 0 := rfl

theorem ctTotal_add (t : CounterTable) (l u pl pu d : String) (v : ℤ) :
    ctTotal (CounterTable.add t l u pl pu d v) = ctTotal t + v := by
  induction t with
  | nil => simp [CounterTable.add, ctTotal]
  | cons kv rest ih =>
    obtain ⟨k, it⟩ := kv
    by_cases hk : k = CounterTable.mkKey l u pl pu d
    · simp [CounterTable.add, hk, ctTotal]
      ring
    · simp only [CounterTable.add, hk, if_false, ite_false]
      simp [ctTotal] at ih ⊢
      omega

theorem ctLookupFreq_add_self (t : CounterTable) (l u pl pu d : String) (v : ℤ) :
    CounterTable.lookupFreq (CounterTable.add t l u pl pu d v) l u pl pu d
      = CounterTable.lookupFreq t l u pl pu d + v := by
  induction t with
  | nil => simp [CounterTable.add, CounterTable.lookupFreq, List.find?]
  | cons kv rest ih =>
    obtain ⟨k, it⟩ := kv
    by_cases hk : k = CounterTable.mkKey l u pl pu d
    · simp [CounterTable.add, hk, CounterTable.lookupFreq, List.find?]
    · simp only [CounterTable.add, hk, if_false, ite_false]
      simp [CounterTable.lookupFreq, List.find?, hk] at ih ⊢
      exact ih

theorem fyLookupFreq_add_self (t : FyTable) (l u d : String) (v : ℤ) :
    FyTable.lookupFreq (FyTable.add t l u d v) l u d
      = FyTable.lookupFreq t l u d + v := by
  induction t with
  | nil => simp [FyTable.add, FyTable.lookupFreq, List.find?]
  | cons kv rest ih =>
    obtain ⟨k, it⟩ := kv
    by_cases hk : k = FyTable.mkKey l u d
    · simp [FyTable.add, hk, FyTable.lookupFreq, List.find?]
    · simp only [FyTable.add, hk, if_false, ite_false]
      simp [FyTable.lookupFreq, List.find?, hk] at ih ⊢
      exact ih

theorem sliceContains_of_mem {types : List String} {dep : String} (h : dep ∈ types) :
    sliceContains types dep = true := by
  simpa [sliceContains, List.contains] using List.elem_eq_true_of_mem h

/-! ## C5 -/

/-- C5: a token whose deprel attribute is the multi-value expression
obj|iobj is counted by the aggregation under a relation filter
requesting obj, under one requesting iobj and under one requesting
obj|iobj, but never under one requesting nsubj (whatever the lemma,
upos and parent attributes of the token are). -/
theorem c5_multivalue_deprel_filtering (l u pl pu : String) :
    tokenCounted "obj" (mkTok l u pl pu "obj|iobj")
    ∧ tokenCounted "iobj" (mkTok l u pl pu "obj|iobj")
    ∧ tokenCounted "obj|iobj" (mkTok l u pl pu "obj|iobj")
    ∧ ¬ tokenCounted "nsubj" (mkTok l u pl pu "obj|iobj") := by
  have e : expandDeprelMultivalue "obj|iobj" = ["obj", "iobj", "obj|iobj"] := by decide
  refine ⟨?_, ?_, ?_, ?_⟩
  · have c1 : sliceContains (expandDeprelMultivalues ["obj"]) "obj" = true := by decide
    have c2 : sliceContains (expandDeprelMultivalues ["obj"]) "iobj" = false := by decide
    have c3 : sliceContains (expandDeprelMultivalues ["obj"]) "obj|iobj" = false := by
      decide
    simp [tokenCounted, vertProcToken, mkTok, attrAt, emptyVertState, e, stdConf,
      List.foldl, c1, c2, c3, ctTotal_add, ctTotal_nil]
  · have c1 : sliceContains (expandDeprelMultivalues ["iobj"]) "obj" = false := by decide
    have c2 : sliceContains (expandDeprelMultivalues ["iobj"]) "iobj" = true := by decide
    have c3 : sliceContains (expandDeprelMultivalues ["iobj"]) "obj|iobj" = false := by
      decide
    simp [tokenCounted, vertProcToken, mkTok, attrAt, emptyVertState, e, stdConf,
      List.foldl, c1, c2, c3, ctTotal_add, ctTotal_nil]
  · have c1 : sliceContains (expandDeprelMultivalues ["obj|iobj"]) "obj" = true := by
      decide
    have c2 : sliceContains (expandDeprelMultivalues ["obj|iobj"]) "iobj" = true := by
      decide
    have c3 : sliceContains (expandDeprelMultivalues ["obj|iobj"]) "obj|iobj" = true := by
      decide
    simp [tokenCounted, vertProcToken, mkTok, attrAt, emptyVertState, e, stdConf,
      List.foldl, c1, c2, c3, ctTotal_add, ctTotal_nil]
  · have c1 : sliceContains (expandDeprelMultivalues ["nsubj"]) "obj" = false := by decide
    have c2 : sliceContains (expandDeprelMultivalues ["nsubj"]) "iobj" = false := by
      decide
    have c3 : sliceContains (expandDeprelMultivalues ["nsubj"]) "obj|iobj" = false := by
      decide
    simp [tokenCounted, vertProcToken, mkTok, attrAt, emptyVertState, e, stdConf,
      List.foldl, c1, c2, c3, ctTotal_add, ctTotal_nil]

/-! ## C6 -/

/-- C6: for a token whose deprel contains no pipe and is contained in
the configured DeprelTypes, one ProcToken call increments the matching
edge record and both matching marginal sums by exactly 2, because
expandDeprelMultivalue returns the atomic value twice (once from the
split, once as the appended original expression). -/
theorem c6_atomic_deprel_counted_twice (l u pl pu dep : String)
    (types : List String) (st : VertProcState)
    (hpipe : '|' ∉ dep.data) (hmem : dep ∈ types) :
    CounterTable.lookupFreq
        (vertProcToken stdConf types st (mkTok l u pl pu dep)).table l u pl pu dep
      = CounterTable.lookupFreq st.table l u pl pu dep + 2
    ∧ FyTable.lookupFreq
        (vertProcToken stdConf types st (mkTok l u pl pu dep)).parentCounts pl pu dep
      = FyTable.lookupFreq st.parentCounts pl pu dep + 2
    ∧ FyTable.lookupFreq
        (vertProcToken stdConf types st (mkTok l u pl pu dep)).childCounts l u dep
      = FyTable.lookupFreq st.childCounts l u dep + 2 := by
  have e : expandDeprelMultivalue dep = [dep, dep] := by
    simp [expandDeprelMultivalue, splitPipe_of_not_mem hpipe]
  have hc : sliceContains types dep = true := sliceContains_of_mem hmem
  refine ⟨?_, ?_, ?_⟩ <;>
    · simp [vertProcToken, mkTok, attrAt, e, hc, stdConf, List.foldl,
        ctLookupFreq_add_self, fyLookupFreq_add_self]
      ring

/-- C6 witness at a concrete token and the DeprelTypes built by
runForDeprel from the standard configuration. -/
theorem c6_atomic_deprel_counted_twice_witness :
    CounterTable.lookupFreq
        (vertProcToken stdConf
          (expandDeprelMultivalues ["nmod", "nsubj", "obj|iobj"]) emptyVertState
          (mkTok "team" "NOUN" "leader" "NOUN" "nmod")).table
        "team" "NOUN" "leader" "NOUN" "nmod"
      = CounterTable.lookupFreq emptyVertState.table "team" "NOUN" "leader" "NOUN" "nmod"
        + 2 :=
  (c6_atomic_deprel_counted_twice "team" "NOUN" "leader" "NOUN" "nmod"
    (expandDeprelMultivalues ["nmod", "nsubj", "obj|iobj"]) emptyVertState
    (by decide) (by decide)).1

/-! ## Co-occurrence pass lemmas -/

theorem CoOccTable.has_add_of_has (t : CoOccTable) (l u cl cu : String) (v : ℤ)
    (h : CoOccTable.has t l u cl cu = true) (a b c d : String) :
    CoOccTable.has (CoOccTable.add t l u cl cu v) a b c d
      = CoOccTable.has t a b c d := by
  induction t with
  | nil => simp [CoOccTable.has] at h
  | cons kv rest ih =>
    obtain ⟨k, it⟩ := kv
    by_cases hk : k = CoOccTable.mkKey l u cl cu
    · simp [CoOccTable.add, hk, CoOccTable.has]
    · have h' : CoOccTable.has rest l u cl cu = true := by
        simp only [CoOccTable.has, List.any_cons, decide_eq_false hk,
          Bool.false_or] at h
        exact h
      have ih' := ih h'
      simp only [CoOccTable.has, List.any_cons] at ih' ⊢
      simp only [CoOccTable.add, if_neg hk, List.any_cons, ih']

theorem CoOccTable.lookupFreq_add (t : CoOccTable) (l u cl cu : String) (v : ℤ)
    (a b c d : String) :
    CoOccTable.lookupFreq (CoOccTable.add t l u cl cu v) a b c d
      = CoOccTable.lookupFreq t a b c d
        + if CoOccTable.mkKey l u cl cu = CoOccTable.mkKey a b c d then v else 0 := by
  induction t with
  | nil =>
    by_cases hq : CoOccTable.mkKey l u cl cu = CoOccTable.mkKey a b c d <;>
      simp [CoOccTable.add, CoOccTable.lookupFreq, List.find?, hq]
  | cons kv rest ih =>
    obtain ⟨k, it⟩ := kv
    by_cases hk : k = CoOccTable.mkKey l u cl cu
    · by_cases hq : CoOccTable.mkKey l u cl cu = CoOccTable.mkKey a b c d
      · have hkq : k = CoOccTable.mkKey a b c d := hk.trans hq
        simp [CoOccTable.add, if_pos hk, CoOccTable.lookupFreq, List.find?, hkq, hq]
      · have hkq : ¬ k = CoOccTable.mkKey a b c d := fun hc => hq (hk.symm.trans hc)
        simp [CoOccTable.add, if_pos hk, CoOccTable.lookupFreq, List.find?, hkq, hq]
    · by_cases hkq : k = CoOccTable.mkKey a b c d
      · have hq : ¬ CoOccTable.mkKey l u cl cu = CoOccTable.mkKey a b c d :=
          fun hc => hk (hkq.trans hc.symm)
        have hq' : ¬ CoOccTable.mkKey a b c d = CoOccTable.mkKey l u cl cu :=
          fun hc => hq hc.symm
        simp [CoOccTable.add, if_neg hk, CoOccTable.lookupFreq, List.find?, hkq, hq, hq']
      · simp only [CoOccTable.add, if_neg hk, CoOccTable.lookupFreq, List.find?,
          decide_eq_false hkq] at ih ⊢
        exact ih

theorem coPassAux (span : Nat) (f : String × String)
    (ws : List (Nat × (String × String))) :
    ∀ ct : CoOccTable,
      (∀ a b c d,
        CoOccTable.has
          (ws.foldl
            (fun ct iv =>
              if iv.1 ≠ span ∧ CoOccTable.has ct f.1 f.2 iv.2.1 iv.2.2 then
                CoOccTable.add ct f.1 f.2 iv.2.1 iv.2.2 1
              else ct) ct) a b c d
          = CoOccTable.has ct a b c d)
      ∧ (∀ a b c d,
        CoOccTable.lookupFreq
          (ws.foldl
            (fun ct iv =>
              if iv.1 ≠ span ∧ CoOccTable.has ct f.1 f.2 iv.2.1 iv.2.2 then
                CoOccTable.add ct f.1 f.2 iv.2.1 iv.2.2 1
              else ct) ct) a b c d
          = CoOccTable.lookupFreq ct a b c d
            + (ws.countP (fun iv =>
                decide (iv.1 ≠ span) && CoOccTable.has ct f.1 f.2 iv.2.1 iv.2.2
                  && decide (CoOccTable.mkKey f.1 f.2 iv.2.1 iv.2.2
                    = CoOccTable.mkKey a b c d)) : ℤ)) := by
  induction ws with
  | nil => intro ct; simp
  | cons iv rest ih =>
    intro ct
    by_cases hcond : iv.1 ≠ span ∧ CoOccTable.has ct f.1 f.2 iv.2.1 iv.2.2 = true
    · have hstep :
          (if iv.1 ≠ span ∧ CoOccTable.has ct f.1 f.2 iv.2.1 iv.2.2 then
            CoOccTable.add ct f.1 f.2 iv.2.1 iv.2.2 1
          else ct) = CoOccTable.add ct f.1 f.2 iv.2.1 iv.2.2 1 := by
        rw [if_pos]
        exact ⟨hcond.1, by simp [hcond.2]⟩
      have ihadd := ih (CoOccTable.add ct f.1 f.2 iv.2.1 iv.2.2 1)
      have hhas : ∀ a b c d,
          CoOccTable.has (CoOccTable.add ct f.1 f.2 iv.2.1 iv.2.2 1) a b c d
            = CoOccTable.has ct a b c d :=
        CoOccTable.has_add_of_has ct f.1 f.2 iv.2.1 iv.2.2 1 hcond.2
      constructor
      · intro a b c d
        simp only [List.foldl_cons, hstep]
        rw [ihadd.1 a b c d, hhas]
      · intro a b c d
        simp only [List.foldl_cons, hstep]
        rw [ihadd.2 a b c d, CoOccTable.lookupFreq_add]
        have hpred :
            (rest.countP (fun iv2 =>
              decide (iv2.1 ≠ span)
                && CoOccTable.has (CoOccTable.add ct f.1 f.2 iv.2.1 iv.2.2 1)
                  f.1 f.2 iv2.2.1 iv2.2.2
                && decide (CoOccTable.mkKey f.1 f.2 iv2.2.1 iv2.2.2
                  = CoOccTable.mkKey a b c d)))
              = (rest.countP (fun iv2 =>
                decide (iv2.1 ≠ span) && CoOccTable.has ct f.1 f.2 iv2.2.1 iv2.2.2
                  && decide (CoOccTable.mkKey f.1 f.2 iv2.2.1 iv2.2.2
                    = CoOccTable.mkKey a b c d))) := by
          apply List.countP_congr
          intro iv2 _
          rw [hhas]
        rw [hpred, List.countP_cons]
        have hp : (decide (iv.1 ≠ span) && CoOccTable.has ct f.1 f.2 iv.2.1 iv.2.2
            && decide (CoOccTable.mkKey f.1 f.2 iv.2.1 iv.2.2
              = CoOccTable.mkKey a b c d))
            = decide (CoOccTable.mkKey f.1 f.2 iv.2.1 iv.2.2
              = CoOccTable.mkKey a b c d) := by
          simp [hcond.1, hcond.2]
        rw [hp]
        by_cases hq : CoOccTable.mkKey f.1 f.2 iv.2.1 iv.2.2 = CoOccTable.mkKey a b c d
        · simp only [if_pos hq, decide_eq_true hq]
          push_cast
          ring
        · simp only [if_neg hq, decide_eq_false hq]
          push_cast
          ring
    · have hstep :
          (if iv.1 ≠ span ∧ CoOccTable.has ct f.1 f.2 iv.2.1 iv.2.2 then
            CoOccTable.add ct f.1 f.2 iv.2.1 iv.2.2 1
          else ct) = ct := by
        rw [if_neg]
        intro hc
        exact hcond ⟨hc.1, by simpa using hc.2⟩
      constructor
      · intro a b c d
        simp only [List.foldl_cons, hstep]
        exact (ih ct).1 a b c d
      · intro a b c d
        simp only [List.foldl_cons, hstep]
        rw [(ih ct).2 a b c d, List.countP_cons]
        have hfalse : (decide (iv.1 ≠ span)
            && CoOccTable.has ct f.1 f.2 iv.2.1 iv.2.2
            && decide (CoOccTable.mkKey f.1 f.2 iv.2.1 iv.2.2
              = CoOccTable.mkKey a b c d)) = false := by
          rcases Decidable.not_and_iff_or_not.mp hcond with h1 | h2
          · simp [decide_eq_false h1]
          · simp [h2]
        rw [hfalse]
        simp

/-! ## C7 -/

/-- C7 counterexample: with span 1 and a seeded token (a, N), a single
arriving token leaves the window with 1 token (far from the required
2*1+1 = 3), yet the TokenMarginalCount table has already been
incremented: counts are contributed before the sliding window ever
fills, refuting the claim that a position contributes counts only once
the window holds exactly 2*span+1 tokens. -/
theorem c7_counts_before_window_fills :
    (coVertProcToken stdConf 1 c7St0 c7Tok).window.length ≠ 2 * 1 + 1
    ∧ (coVertProcToken stdConf 1 c7St0 c7Tok).tokenCounts ≠ c7St0.tokenCounts := by
  refine ⟨by decide, by decide⟩

/-- C7 (amended): for every processor state and every token row with
enough columns, (1) the window is updated FIFO (the oldest token is
evicted exactly when the window already holds 2*span+1 tokens);
(2) the arriving token's TokenMarginalCount is incremented exactly when
its (lemma, upos) pair is seeded, on every arrival and regardless of
the window state; (3) the pair table changes only when the updated
window holds exactly 2*span+1 tokens; (4) the set of seeded pair keys
never grows; (5) when the updated window is full, every pair key is
incremented by exactly the number of non-middle window positions whose
pair with the middle token is seeded under that key. -/
theorem c7_window_and_counts (conf : SyntaxProps) (span : Nat)
    (st : CoVertState) (tok : Token) (hlen : 12 ≤ tok.attrs.length) :
    (coVertProcToken conf span st tok).window
      = (if st.window.length = 2 * span + 1 then st.window.tail else st.window)
        ++ [(attrAt tok conf.lemmaAttr.verticalCol, attrAt tok conf.posAttr.verticalCol)]
    ∧ (coVertProcToken conf span st tok).tokenCounts
      = (if FyTable.has st.tokenCounts (attrAt tok conf.lemmaAttr.verticalCol)
            (attrAt tok conf.posAttr.verticalCol) "" = true
          then FyTable.add st.tokenCounts (attrAt tok conf.lemmaAttr.verticalCol)
            (attrAt tok conf.posAttr.verticalCol) "" 1
          else st.tokenCounts)
    ∧ ((coVertProcToken conf span st tok).window.length ≠ 2 * span + 1 →
        (coVertProcToken conf span st tok).coTable = st.coTable)
    ∧ (∀ a b c d, CoOccTable.has (coVertProcToken conf span st tok).coTable a b c d
        = CoOccTable.has st.coTable a b c d)
    ∧ ((coVertProcToken conf span st tok).window.length = 2 * span + 1 →
        ∀ a b c d,
          CoOccTable.lookupFreq (coVertProcToken conf span st tok).coTable a b c d
            = CoOccTable.lookupFreq st.coTable a b c d
              + countMatches span
                  ((coVertProcToken conf span st tok).window.getD span ("", ""))
                  (coVertProcToken conf span st tok).window st.coTable a b c d) := by
  have h12 : ¬ tok.attrs.length < 12 := by omega
  refine ⟨?_, ?_, ?_, ?_, ?_⟩
  · simp only [coVertProcToken, if_neg h12]
    split <;> rfl
  · simp only [coVertProcToken, if_neg h12]
  · intro hne
    simp only [coVertProcToken, if_neg h12] at hne ⊢
    rw [if_neg hne]
  · intro a b c d
    simp only [coVertProcToken, if_neg h12]
    split <;> split <;>
      first
        | rfl
        | exact (coPassAux span _ _ _).1 a b c d
  · intro hfull a b c d
    simp only [coVertProcToken, if_neg h12] at hfull ⊢
    rw [if_pos hfull]
    exact (coPassAux span _ _ _).2 a b c d

/-- C7 amended witness: the marginal-count clause applied to the
concrete seeded state and token. -/
theorem c7_window_and_counts_witness :
    (coVertProcToken stdConf 1 c7St0 c7Tok).tokenCounts
      = (if FyTable.has c7St0.tokenCounts (attrAt c7Tok stdConf.lemmaAttr.verticalCol)
            (attrAt c7Tok stdConf.posAttr.verticalCol) "" = true
          then FyTable.add c7St0.tokenCounts (attrAt c7Tok stdConf.lemmaAttr.verticalCol)
            (attrAt c7Tok stdConf.posAttr.verticalCol) "" 1
          else c7St0.tokenCounts) :=
  (c7_window_and_counts stdConf 1 c7St0 c7Tok (by decide)).2.1

/-! ## Composite-key injectivity and per-deprel sums -/

theorem colon_data : (":" : String).data = [':'] := rfl

theorem fyMkKey_data (l u d : String) :
    (FyTable.mkKey l u d).data = l.data ++ ':' :: (u.data ++ ':' :: d.data) := by
  simp [FyTable.mkKey, strData_append, colon_data, List.append_assoc,
    List.singleton_append]

theorem ctMkKey_data (l u pl pu d : String) :
    (CounterTable.mkKey l u pl pu d).data
      = l.data ++ ':' :: (u.data ++ ':' :: (d.data ++ ':'
          :: (pl.data ++ ':' :: pu.data))) := by
  simp [CounterTable.mkKey, strData_append, colon_data, List.append_assoc,
    List.singleton_append]

theorem fyMkKey_inj {l u d l2 u2 d2 : String}
    (hl : colonFree l) (hu : colonFree u) (hl2 : colonFree l2) (hu2 : colonFree u2)
    (h : FyTable.mkKey l u d = FyTable.mkKey l2 u2 d2) :
    l = l2 ∧ u = u2 ∧ d = d2 := by
  have hd := congrArg String.data h
  rw [fyMkKey_data, fyMkKey_data] at hd
  obtain ⟨e1, e2⟩ := colon_parse hl hl2 hd
  obtain ⟨e3, e4⟩ := colon_parse hu hu2 e2
  exact ⟨str_ext e1, str_ext e3, str_ext e4⟩

theorem ctMkKey_inj {l u pl pu d l2 u2 pl2 pu2 d2 : String}
    (hl : colonFree l) (hu : colonFree u) (hpl : colonFree pl) (hd : colonFree d)
    (hl2 : colonFree l2) (hu2 : colonFree u2) (hpl2 : colonFree pl2)
    (hd2 : colonFree d2)
    (h : CounterTable.mkKey l u pl pu d = CounterTable.mkKey l2 u2 pl2 pu2 d2) :
    l = l2 ∧ u = u2 ∧ pl = pl2 ∧ pu = pu2 ∧ d = d2 := by
  have hdata := congrArg String.data h
  rw [ctMkKey_data, ctMkKey_data] at hdata
  obtain ⟨e1, e2⟩ := colon_parse hl hl2 hdata
  obtain ⟨e3, e4⟩ := colon_parse hu hu2 e2
  obtain ⟨e5, e6⟩ := colon_parse hd hd2 e4
  obtain ⟨e7, e8⟩ := colon_parse hpl hpl2 e6
  exact ⟨str_ext e1, str_ext e3, str_ext e7, str_ext e8, str_ext e5⟩

theorem fySumFor_add (l u dep : String) (hl : colonFree l) (hu : colonFree u)
    (v : ℤ) (d0 : String) :
    ∀ t : FyTable, fyCoherent t →
      fySumFor d0 (FyTable.add t l u dep v)
        = fySumFor d0 t + (if dep = d0 then v else 0)
  | [], _ => by by_cases h : dep = d0 <;> simp [FyTable.add, fySumFor, h]
  | (k, it) :: rest, hco => by
    obtain ⟨hkey, hcl, hcu, _⟩ := hco (k, it) (List.mem_cons_self _ _)
    have hcoRest : fyCoherent rest := fun kd hm => hco kd (List.mem_cons_of_mem _ hm)
    by_cases hk : k = FyTable.mkKey l u dep
    · have heq := fyMkKey_inj hcl hcu hl hu (by rw [← hkey, hk])
      have hdd : it.deprel = dep := heq.2.2
      by_cases hd : dep = d0
      · simp [FyTable.add, hk, fySumFor, hdd, hd]
        ring
      · simp [FyTable.add, hk, fySumFor, hdd, hd]
    · have ih := fySumFor_add l u dep hl hu v d0 rest hcoRest
      simp only [FyTable.add, if_neg hk]
      simp [fySumFor] at ih ⊢
      omega

theorem ctSumFor_add (l u pl pu dep : String) (hl : colonFree l) (hu : colonFree u)
    (hpl : colonFree pl) (hdep : colonFree dep) (v : ℤ) (d0 : String) :
    ∀ t : CounterTable, ctCoherent t →
      ctSumFor d0 (CounterTable.add t l u pl pu dep v)
        = ctSumFor d0 t + (if dep = d0 then v else 0)
  | [], _ => by by_cases h : dep = d0 <;> simp [CounterTable.add, ctSumFor, h]
  | (k, it) :: rest, hco => by
    obtain ⟨hkey, hcl, hcu, hcpl, _, hcd⟩ := hco (k, it) (List.mem_cons_self _ _)
    have hcoRest : ctCoherent rest := fun kd hm => hco kd (List.mem_cons_of_mem _ hm)
    by_cases hk : k = CounterTable.mkKey l u pl pu dep
    · have heq := ctMkKey_inj hcl hcu hcpl hcd hl hu hpl hdep (by rw [← hkey, hk])
      have hdd : it.deprel = dep := heq.2.2.2.2
      by_cases hd : dep = d0
      · simp [CounterTable.add, hk, ctSumFor, hdd, hd]
        ring
      · simp [CounterTable.add, hk, ctSumFor, hdd, hd]
    · have ih := ctSumFor_add l u pl pu dep hl hu hpl hdep v d0 rest hcoRest
      simp only [CounterTable.add, if_neg hk]
      simp [ctSumFor] at ih ⊢
      omega

theorem fyCoherent_add (l u dep : String) (hl : colonFree l) (hu : colonFree u)
    (hdep : colonFree dep) (v : ℤ) :
    ∀ t : FyTable, fyCoherent t → fyCoherent (FyTable.add t l u dep v)
  | [], _ => by
    intro kv hm
    simp [FyTable.add] at hm
    subst hm
    exact ⟨rfl, hl, hu, hdep⟩
  | (k, it) :: rest, hco => by
    have hhead := hco (k, it) (List.mem_cons_self _ _)
    have hcoRest : fyCoherent rest := fun kd hm => hco kd (List.mem_cons_of_mem _ hm)
    by_cases hk : k = FyTable.mkKey l u dep
    · intro kv hm
      simp only [FyTable.add, if_pos hk] at hm
      rcases List.mem_cons.mp hm with hh | ht
      · subst hh
        exact hhead
      · exact hco kv (List.mem_cons_of_mem _ ht)
    · intro kv hm
      simp only [FyTable.add, if_neg hk] at hm
      rcases List.mem_cons.mp hm with hh | ht
      · subst hh
        exact hhead
      · exact fyCoherent_add l u dep hl hu hdep v rest hcoRest kv ht

theorem ctCoherent_add (l u pl pu dep : String) (hl : colonFree l)
    (hu : colonFree u) (hpl : colonFree pl) (hpu : colonFree pu)
    (hdep : colonFree dep) (v : ℤ) :
    ∀ t : CounterTable, ctCoherent t → ctCoherent (CounterTable.add t l u pl pu dep v)
  | [], _ => by
    intro kv hm
    simp [CounterTable.add] at hm
    subst hm
    exact ⟨rfl, hl, hu, hpl, hpu, hdep⟩
  | (k, it) :: rest, hco => by
    have hhead := hco (k, it) (List.mem_cons_self _ _)
    have hcoRest : ctCoherent rest := fun kd hm => hco kd (List.mem_cons_of_mem _ hm)
    by_cases hk : k = CounterTable.mkKey l u pl pu dep
    · intro kv hm
      simp only [CounterTable.add, if_pos hk] at hm
      rcases List.mem_cons.mp hm with hh | ht
      · subst hh
        exact hhead
      · exact hco kv (List.mem_cons_of_mem _ ht)
    · intro kv hm
      simp only [CounterTable.add, if_neg hk] at hm
      rcases List.mem_cons.mp hm with hh | ht
      · subst hh
        exact hhead
      · exact ctCoherent_add l u pl pu dep hl hu hpl hpu hdep v rest hcoRest kv ht

theorem colonFree_empty : colonFree "" := by
  simp [colonFree]

theorem colonFree_getD :
    ∀ (l : List String) (n : Nat), (∀ a ∈ l, colonFree a) → colonFree (l.getD n "")
  | [], n, _ => by simp [List.getD]; exact colonFree_empty
  | a :: rest, 0, h => by simpa [List.getD] using h a (List.mem_cons_self _ _)
  | a :: rest, n + 1, h => by
    simp only [List.getD_cons_succ]
    exact colonFree_getD rest n (fun b hb => h b (List.mem_cons_of_mem _ hb))

theorem colonFree_attrAt {tok : Token} (h : ∀ a ∈ tok.attrs, colonFree a) (c : Nat) :
    colonFree (attrAt tok c) :=
  colonFree_getD tok.attrs (c - 1) h

theorem aggInv_empty : aggInv emptyVertState := by
  refine ⟨?_, ?_, ?_, fun d => ⟨rfl, rfl⟩⟩ <;>
    exact fun kv hm => absurd hm (List.not_mem_nil _)

theorem aggInv_add3 (st : VertProcState) (hinv : aggInv st)
    (l u pl pu dep : String) (hl : colonFree l) (hu : colonFree u)
    (hpl : colonFree pl) (hpu : colonFree pu) (hdep : colonFree dep) :
    aggInv ⟨CounterTable.add st.table l u pl pu dep 1,
      FyTable.add st.parentCounts pl pu dep 1,
      FyTable.add st.childCounts l u dep 1⟩ := by
  obtain ⟨hct, hpar, hch, hsum⟩ := hinv
  refine ⟨ctCoherent_add l u pl pu dep hl hu hpl hpu hdep 1 st.table hct,
    fyCoherent_add pl pu dep hpl hpu hdep 1 st.parentCounts hpar,
    fyCoherent_add l u dep hl hu hdep 1 st.childCounts hch, ?_⟩
  intro d
  constructor
  · rw [ctSumFor_add l u pl pu dep hl hu hpl hdep 1 d st.table hct,
      fySumFor_add pl pu dep hpl hpu 1 d st.parentCounts hpar, (hsum d).1]
  · rw [ctSumFor_add l u pl pu dep hl hu hpl hdep 1 d st.table hct,
      fySumFor_add l u dep hl hu 1 d st.childCounts hch, (hsum d).2]

theorem aggInv_foldAdds (deprelTypes : List String)
    (htypes : ∀ x ∈ deprelTypes, colonFree x)
    (lemma_ upos pLemma pUpos : String) (hl : colonFree lemma_)
    (hu : colonFree upos) (hpl : colonFree pLemma) (hpu : colonFree pUpos) :
    ∀ (deps : List String) (st : VertProcState), aggInv st →
      aggInv (deps.foldl
        (fun s deprel =>
          if sliceContains deprelTypes deprel then
            { table := CounterTable.add s.table lemma_ upos pLemma pUpos deprel 1
              parentCounts := FyTable.add s.parentCounts pLemma pUpos deprel 1
              childCounts := FyTable.add s.childCounts lemma_ upos deprel 1 }
          else s) st)
  | [], _, hinv => hinv
  | dep :: rest, st, hinv => by
    simp only [List.foldl_cons]
    by_cases hc : sliceContains deprelTypes dep = true
    · have hdep : colonFree dep :=
        htypes dep (by simpa [sliceContains, List.contains] using hc)
      rw [if_pos hc]
      exact aggInv_foldAdds deprelTypes htypes lemma_ upos pLemma pUpos hl hu hpl hpu
        rest _ (aggInv_add3 st hinv lemma_ upos pLemma pUpos dep hl hu hpl hpu hdep)
    · rw [if_neg hc]
      exact aggInv_foldAdds deprelTypes htypes lemma_ upos pLemma pUpos hl hu hpl hpu
        rest st hinv

theorem aggInv_procToken (conf : SyntaxProps) (deprelTypes : List String)
    (htypes : ∀ x ∈ deprelTypes, colonFree x) (st : VertProcState) (hinv : aggInv st)
    (tok : Token) (htok : ∀ a ∈ tok.attrs, colonFree a) :
    aggInv (vertProcToken conf deprelTypes st tok) := by
  unfold vertProcToken
  by_cases h12 : tok.attrs.length < 12
  · rw [if_pos h12]
    exact hinv
  · rw [if_neg h12]
    exact aggInv_foldAdds deprelTypes htypes _ _ _ _
      (colonFree_attrAt htok _) (colonFree_attrAt htok _)
      (colonFree_attrAt htok _) (colonFree_attrAt htok _)
      (expandDeprelMultivalue (attrAt tok conf.funcAttr.verticalCol)) st hinv

theorem aggInv_vertProcess (conf : SyntaxProps) (deprelTypes : List String)
    (htypes : ∀ x ∈ deprelTypes, colonFree x) :
    ∀ (toks : List Token), (∀ tok ∈ toks, ∀ a ∈ tok.attrs, colonFree a) →
      ∀ st : VertProcState, aggInv st →
        aggInv (toks.foldl (vertProcToken conf deprelTypes) st)
  | [], _, _, hinv => hinv
  | tok :: rest, htoks, st, hinv => by
    simp only [List.foldl_cons]
    exact aggInv_vertProcess conf deprelTypes htypes rest
      (fun t ht => htoks t (List.mem_cons_of_mem _ ht)) _
      (aggInv_procToken conf deprelTypes htypes st hinv tok
        (htoks tok (List.mem_cons_self _ _)))

/-! ## C8 -/

/-- C8 counterexample: with a relation value containing a colon (as UD
subtype labels such as nmod:poss do) the composite string keys of
distinct (lemma, upos, deprel) triples collide ("w" : "q:i" : "obj" and
"w" : "q" : "i:obj" both give the key w:q:i:obj), and after one
aggregation pass the per-deprel totals disagree: for deprel "obj" the
parent sums hold 2 while the child sums hold 4. -/
theorem c8_sum_invariant_fails_on_key_collision :
    fySumFor "obj" (vertProcess c8Conf c8Types c8Toks).parentCounts = 2
    ∧ fySumFor "obj" (vertProcess c8Conf c8Types c8Toks).childCounts = 4
    ∧ fySumFor "obj" (vertProcess c8Conf c8Types c8Toks).parentCounts
        ≠ fySumFor "obj" (vertProcess c8Conf c8Types c8Toks).childCounts := by
  refine ⟨by decide, by decide, by decide⟩

/-- C8 (amended): provided no token attribute value and no configured
relation value contains the key delimiter ':' (so the composite string
keys of the in-memory maps are injective), after a single aggregation
pass over any token stream the total frequency of the ParentSum
entries, of the ChildSum entries and of the DependencyEdgeRecord
entries agree for every fixed deprel value; with colliding keys the
invariant fails (see the counterexample). -/
theorem c8_marginal_sums_agree (conf : SyntaxProps) (deprelTypes : List String)
    (toks : List Token)
    (htoks : ∀ tok ∈ toks, ∀ a ∈ tok.attrs, colonFree a)
    (htypes : ∀ x ∈ deprelTypes, colonFree x) (d : String) :
    ctSumFor d (vertProcess conf deprelTypes toks).table
      = fySumFor d (vertProcess conf deprelTypes toks).parentCounts
    ∧ ctSumFor d (vertProcess conf deprelTypes toks).table
      = fySumFor d (vertProcess conf deprelTypes toks).childCounts :=
  (aggInv_vertProcess conf deprelTypes htypes toks htoks
    emptyVertState aggInv_empty).2.2.2 d

/-- C8 amended witness on a concrete colon-free stream and deprel. -/
theorem c8_marginal_sums_agree_witness :
    ctSumFor "nmod"
        (vertProcess stdConf (expandDeprelMultivalues ["nmod", "nsubj", "obj"])
          [mkTok "team" "NOUN" "leader" "NOUN" "nmod"]).table
      = fySumFor "nmod"
        (vertProcess stdConf (expandDeprelMultivalues ["nmod", "nsubj", "obj"])
          [mkTok "team" "NOUN" "leader" "NOUN" "nmod"]).parentCounts
    ∧ ctSumFor "nmod"
        (vertProcess stdConf (expandDeprelMultivalues ["nmod", "nsubj", "obj"])
          [mkTok "team" "NOUN" "leader" "NOUN" "nmod"]).table
      = fySumFor "nmod"
        (vertProcess stdConf (expandDeprelMultivalues ["nmod", "nsubj", "obj"])
          [mkTok "team" "NOUN" "leader" "NOUN" "nmod"]).childCounts :=
  c8_marginal_sums_agree stdConf (expandDeprelMultivalues ["nmod", "nsubj", "obj"])
    [mkTok "team" "NOUN" "leader" "NOUN" "nmod"] (by decide) (by decide) "nmod"

/-! ## C9 -/

/-- C9 counterexample: a request with a valid word for an unconfigured
corpus is answered with HTTP 500 (actions.go:55 passes
http.StatusInternalServerError), a server error and not a client
error, contradicting the claim that corpus-not-found yields a client
error. -/
theorem c9_unknown_corpus_is_server_error :
    nounsModifiedBy c9Env = .errorResp 500
    ∧ (nounsModifiedBy c9Env).isClientError = false
    ∧ (nounsModifiedBy c9Env).isServerError = true := by
  refine ⟨by decide, by decide, by decide⟩

/-- C9 (amended): an empty word parameter yields the 422 client error
before any storage result is consulted; an unconfigured corpus yields
the 500 server error; a failed marginal-frequency fetch or a failed
candidate fetch yields the 500 server error with the request aborted
(no partial response); and only when the word is valid, the corpus is
configured and both fetches succeed is a success payload produced. -/
theorem c9_handler_error_statuses (env : QueryEnv) :
    (env.w = "" → nounsModifiedBy env = .errorResp 422
      ∧ (nounsModifiedBy env).isClientError = true)
    ∧ (env.w ≠ "" → env.corpusFound = false →
      nounsModifiedBy env = .errorResp 500
        ∧ (nounsModifiedBy env).isServerError = true)
    ∧ (∀ e, env.w ≠ "" → env.corpusFound = true → env.fxFetch = .error e →
      nounsModifiedBy env = .errorResp 500
        ∧ (nounsModifiedBy env).isServerError = true)
    ∧ (∀ fx e, env.w ≠ "" → env.corpusFound = true → env.fxFetch = .ok fx →
      env.candFetch = .error e →
      nounsModifiedBy env = .errorResp 500
        ∧ (nounsModifiedBy env).isServerError = true)
    ∧ (∀ fx cands, env.w ≠ "" → env.corpusFound = true → env.fxFetch = .ok fx →
      env.candFetch = .ok cands →
      nounsModifiedBy env
        = .success (rankItems env.corpusSize fx cands env.maxItems)) := by
  refine ⟨?_, ?_, ?_, ?_, ?_⟩
  · intro hw
    simp [nounsModifiedBy, wordIsValid, hw, HandlerOutcome.isClientError]
  · intro hw hc
    simp [nounsModifiedBy, wordIsValid, hw, hc, HandlerOutcome.isServerError]
  · intro e hw hc hfx
    simp [nounsModifiedBy, wordIsValid, hw, hc, hfx, HandlerOutcome.isServerError]
  · intro fx e hw hc hfx hcand
    simp [nounsModifiedBy, wordIsValid, hw, hc, hfx, hcand,
      HandlerOutcome.isServerError]
  · intro fx cands hw hc hfx hcand
    simp [nounsModifiedBy, wordIsValid, hw, hc, hfx, hcand]

/-- C9 amended witness: the empty-word clause at a concrete request
environment. -/
theorem c9_handler_error_statuses_witness :
    nounsModifiedBy
        { w := "", pos := "", maxItems := 10, corpusFound := true,
          corpusSize := 1000, fxFetch := .ok 3, candFetch := .ok [] }
      = .errorResp 422
    ∧ (nounsModifiedBy
        { w := "", pos := "", maxItems := 10, corpusFound := true,
          corpusSize := 1000, fxFetch := .ok 3, candFetch := .ok [] }).isClientError
      = true :=
  (c9_handler_error_statuses
    { w := "", pos := "", maxItems := 10, corpusFound := true,
      corpusSize := 1000, fxFetch := .ok 3, candFetch := .ok [] }).1 rfl

/-! ## Stable-sort lemmas -/

theorem sliceStableInsert_perm (less : α → α → Bool) (x : α) :
    ∀ l : List α, (sliceStableInsert less x l).Perm (x :: l)
  | [] => List.Perm.refl _
  | y :: ys => by
    unfold sliceStableInsert
    by_cases h : less y x = true
    · rw [if_pos h]
      exact ((sliceStableInsert_perm less x ys).cons y).trans
        (List.Perm.swap x y ys)
    · rw [if_neg h]

theorem sliceStableSort_perm (less : α → α → Bool) :
    ∀ l : List α, (sliceStableSort less l).Perm l
  | [] => List.Perm.refl _
  | x :: xs =>
    (sliceStableInsert_perm less x (sliceStableSort less xs)).trans
      ((sliceStableSort_perm less xs).cons x)

theorem sliceStableSort_length (less : α → α → Bool) (l : List α) :
    (sliceStableSort less l).length = l.length :=
  (sliceStableSort_perm less l).length_eq

theorem scoreLt_irrefl (s : RawScore) : scoreLt s s = false := by
  cases s <;> simp [scoreLt]

theorem scoreLt_asymm {a b : RawScore} (h : scoreLt a b = true) :
    scoreLt b a = false := by
  cases a <;> cases b <;> simp_all [scoreLt] <;> linarith

theorem scoreLt_neg_trans {a b c : RawScore} (ha : a ≠ .nan) (hb : b ≠ .nan)
    (hc : c ≠ .nan) (h1 : scoreLt a b = false) (h2 : scoreLt b c = false) :
    scoreLt a c = false := by
  cases a <;> cases b <;> cases c <;> simp_all [scoreLt] <;> linarith

theorem filter_sliceStableInsert_pos (x : FreqDistribItem) (c : RawScore)
    (hx : x.collWeight = c) :
    ∀ l : List FreqDistribItem,
      (sliceStableInsert itemBefore x l).filter (fun it => decide (it.collWeight = c))
        = x :: l.filter (fun it => decide (it.collWeight = c))
  | [] => by simp [sliceStableInsert, hx]
  | y :: ys => by
    unfold sliceStableInsert
    by_cases h : itemBefore y x = true
    · rw [if_pos h]
      have hy : ¬ y.collWeight = c := by
        intro hyc
        have : scoreLt c c = true := by
          have h' : scoreLt x.collWeight y.collWeight = true := h
          rwa [hx, hyc] at h'
        simp [scoreLt_irrefl] at this
      simp only [List.filter_cons, decide_eq_false hy, if_false,
        filter_sliceStableInsert_pos x c hx ys, Bool.false_eq_true]
    · rw [if_neg h]
      simp [List.filter_cons, hx]

theorem filter_sliceStableInsert_neg (x : FreqDistribItem) (c : RawScore)
    (hx : ¬ x.collWeight = c) :
    ∀ l : List FreqDistribItem,
      (sliceStableInsert itemBefore x l).filter (fun it => decide (it.collWeight = c))
        = l.filter (fun it => decide (it.collWeight = c))
  | [] => by simp [sliceStableInsert, hx]
  | y :: ys => by
    unfold sliceStableInsert
    by_cases h : itemBefore y x = true
    · rw [if_pos h]
      simp only [List.filter_cons, filter_sliceStableInsert_neg x c hx ys]
    · rw [if_neg h]
      simp [List.filter_cons, hx]

theorem filter_sliceStableSort (c : RawScore) :
    ∀ l : List FreqDistribItem,
      (sliceStableSort itemBefore l).filter (fun it => decide (it.collWeight = c))
        = l.filter (fun it => decide (it.collWeight = c))
  | [] => rfl
  | x :: xs => by
    unfold sliceStableSort
    by_cases hx : x.collWeight = c
    · rw [filter_sliceStableInsert_pos x c hx, filter_sliceStableSort c xs]
      simp [List.filter_cons, hx]
    · rw [filter_sliceStableInsert_neg x c hx, filter_sliceStableSort c xs]
      simp [List.filter_cons, hx]

theorem pairwise_sliceStableInsert (x : FreqDistribItem)
    (hx : x.collWeight ≠ .nan) :
    ∀ l : List FreqDistribItem, (∀ y ∈ l, y.collWeight ≠ .nan) →
      l.Pairwise (fun a b => scoreLt a.collWeight b.collWeight = false) →
      (sliceStableInsert itemBefore x l).Pairwise
        (fun a b => scoreLt a.collWeight b.collWeight = false)
  | [], _, _ => by simp [sliceStableInsert]
  | y :: ys, hno, hp => by
    unfold sliceStableInsert
    rcases List.pairwise_cons.mp hp with ⟨hyrel, hpys⟩
    by_cases h : itemBefore y x = true
    · rw [if_pos h]
      refine List.pairwise_cons.mpr ⟨?_, pairwise_sliceStableInsert x hx ys
        (fun z hz => hno z (List.mem_cons_of_mem _ hz)) hpys⟩
      intro z hz
      rcases List.mem_cons.mp
          ((sliceStableInsert_perm itemBefore x ys).mem_iff.mp hz) with hzx | hzys
      · subst hzx
        exact scoreLt_asymm h
      · exact hyrel z hzys
    · rw [if_neg h]
      have hxy : scoreLt x.collWeight y.collWeight = false := by
        rw [Bool.not_eq_true] at h
        exact h
      refine List.pairwise_cons.mpr ⟨?_, hp⟩
      intro z hz
      rcases List.mem_cons.mp hz with hzy | hzys
      · subst hzy
        exact hxy
      · exact scoreLt_neg_trans hx (hno y (List.mem_cons_self _ _))
          (hno z (List.mem_cons_of_mem _ hzys)) hxy (hyrel z hzys)

theorem pairwise_sliceStableSort :
    ∀ l : List FreqDistribItem, (∀ y ∈ l, y.collWeight ≠ .nan) →
      (sliceStableSort itemBefore l).Pairwise
        (fun a b => scoreLt a.collWeight b.collWeight = false)
  | [], _ => List.Pairwise.nil
  | x :: xs, hno => by
    unfold sliceStableSort
    exact pairwise_sliceStableInsert x (hno x (List.mem_cons_self _ _))
      (sliceStableSort itemBefore xs)
      (fun z hz => hno z (List.mem_cons_of_mem _
        ((sliceStableSort_perm itemBefore xs).mem_iff.mp hz)))
      (pairwise_sliceStableSort xs
        (fun z hz => hno z (List.mem_cons_of_mem _ hz)))

theorem cutList_eq_take (l : List α) (n : Nat) : cutList l n = l.take n := by
  unfold cutList
  by_cases h : n < l.length
  · rw [if_pos h]
  · rw [if_neg h]
    exact (List.take_of_length_le (by omega)).symm

theorem rawLogDice_ne_nan {fxy fx fy : ℤ} (hxy : 0 < fxy) (hx : 0 ≤ fx)
    (hy : 0 ≤ fy) : rawLogDice fxy fx fy ≠ .nan := by
  by_cases h : fx + fy = 0
  · rw [rawLogDice_posInf hxy h]
    simp
  · have hpos : 0 < fx + fy := by omega
    rw [rawLogDice_finite hxy hpos]
    simp

/-! ## C10 -/

/-- C10: for every retrieved candidate list (rows carry freq at least
the minimum frequency 1 and non-negative marginals, as every fetched
list does), (1) the response list is exactly the maxItems-length prefix
of the stable sort of the built items in descending CollWeight order;
(2) ties preserve the original retrieval order (the sublist of items
with any fixed score is unchanged by the sort); (3) the sorted list is
pairwise descending; (4) with maxItems = 1 on five candidates exactly
one item is returned and no item of the list scores strictly higher;
(5) when the candidate list is not longer than maxItems the whole
sorted list is returned. -/
theorem c10_rank_truncate_stable (corpusSize fx : ℤ) (cands : List Candidate)
    (maxItems : Nat)
    (hfreq : ∀ cd ∈ cands, 1 ≤ cd.freqXY) (hfx : 0 ≤ fx)
    (hfy : ∀ cd ∈ cands, 0 ≤ cd.freqY) :
    rankItems corpusSize fx cands maxItems
      = (sliceStableSort itemBefore (cands.map (mkItem corpusSize fx))).take maxItems
    ∧ (∀ c : RawScore,
      (sliceStableSort itemBefore (cands.map (mkItem corpusSize fx))).filter
          (fun it => decide (it.collWeight = c))
        = (cands.map (mkItem corpusSize fx)).filter
          (fun it => decide (it.collWeight = c)))
    ∧ (sliceStableSort itemBefore (cands.map (mkItem corpusSize fx))).Pairwise
        (fun a b => scoreLt a.collWeight b.collWeight = false)
    ∧ (cands.length = 5 →
      ∃ m, rankItems corpusSize fx cands 1 = [m]
        ∧ ∀ it ∈ cands.map (mkItem corpusSize fx),
            scoreLt m.collWeight it.collWeight = false)
    ∧ (cands.length ≤ maxItems →
      rankItems corpusSize fx cands maxItems
        = sliceStableSort itemBefore (cands.map (mkItem corpusSize fx))) := by
  have hnonan : ∀ it ∈ cands.map (mkItem corpusSize fx), it.collWeight ≠ .nan := by
    intro it hit
    rcases List.mem_map.mp hit with ⟨cd, hcd, rfl⟩
    exact rawLogDice_ne_nan (by have := hfreq cd hcd; omega) hfx (hfy cd hcd)
  have hsortnonan :
      ∀ it ∈ sliceStableSort itemBefore (cands.map (mkItem corpusSize fx)),
        it.collWeight ≠ .nan := fun it hit =>
    hnonan it ((sliceStableSort_perm itemBefore _).mem_iff.mp hit)
  have hpw := pairwise_sliceStableSort (cands.map (mkItem corpusSize fx)) hnonan
  refine ⟨cutList_eq_take _ _, fun c => filter_sliceStableSort c _, hpw, ?_, ?_⟩
  · intro hlen5
    have hslen : (sliceStableSort itemBefore (cands.map (mkItem corpusSize fx))).length
        = 5 := by
      rw [sliceStableSort_length, List.length_map, hlen5]
    cases hS : sliceStableSort itemBefore (cands.map (mkItem corpusSize fx)) with
    | nil => rw [hS] at hslen; simp at hslen
    | cons m rest =>
      refine ⟨m, ?_, ?_⟩
      · unfold rankItems
        rw [cutList_eq_take, hS]
        rfl
      · intro it hit
        have hmem : it ∈ m :: rest := by
          rw [← hS]
          exact ((sliceStableSort_perm itemBefore _).mem_iff).mpr hit
        rcases List.mem_cons.mp hmem with hm | hr
        · subst hm
          exact scoreLt_irrefl _
        · have := List.pairwise_cons.mp (hS ▸ hpw)
          exact this.1 it hr
  · intro hle
    unfold rankItems
    rw [cutList_eq_take]
    apply List.take_of_length_le
    rw [sliceStableSort_length, List.length_map]
    exact hle

/-- C10 witness: the maxItems = 1 scenario on the five concrete
candidates (the strongest is returned alone). -/
theorem c10_rank_truncate_stable_witness :
    ∃ m, rankItems 120000000 6 c10Cands 1 = [m]
      ∧ ∀ it ∈ c10Cands.map (mkItem 120000000 6),
          scoreLt m.collWeight it.collWeight = false :=
  (c10_rank_truncate_stable 120000000 6 c10Cands 1 (by decide) (by decide)
    (by decide)).2.2.2.1 (by decide)

/-- C3 witness: idempotence instantiated at a concrete initial state,
configuration and stream. -/
theorem c3_import_idempotent_witness :
    importCmd true stdConf 1 c2Toks (importCmd true stdConf 1 c2Toks c2Init)
      = importCmd true stdConf 1 c2Toks c2Init :=
  c3_import_idempotent true stdConf 1 c2Toks c2Init

/-- C5 witness: the filter behaviour instantiated at a concrete token. -/
theorem c5_multivalue_deprel_filtering_witness :
    tokenCounted "obj" (mkTok "clause" "NOUN" "take" "VERB" "obj|iobj")
    ∧ tokenCounted "iobj" (mkTok "clause" "NOUN" "take" "VERB" "obj|iobj")
    ∧ tokenCounted "obj|iobj" (mkTok "clause" "NOUN" "take" "VERB" "obj|iobj")
    ∧ ¬ tokenCounted "nsubj" (mkTok "clause" "NOUN" "take" "VERB" "obj|iobj") :=
  c5_multivalue_deprel_filtering "clause" "NOUN" "take" "VERB"
